import Mathlib

/-!
Verification development for the arbitrary-precision hypergeometric
tail-probability engine of `decimal_hypergeom.py`.

The engine's high-precision decimal arithmetic (1024 significant digits by
default, rounded to a reporting precision on return) is modelled as exact
rational arithmetic on `ℚ`, which is the idealisation the specification
itself uses when it speaks about the exact evaluation paths ("taken in exact
arithmetic before the final rounding").  Python integers are modelled as `ℤ`,
Python lists of `[lower, upper]` pairs as `List (ℤ × ℤ)`, and the `while`
loops of the interleaved multiply/divide evaluator as fuel-indexed recursion
where the wrapper supplies fuel provably larger than the number of iterations
the loops perform.
-/

namespace ElectionOutliers

/-- Value of one range `(lower, upper)` of the range-product fraction model:
the product `lower · (lower+1) · … · upper`, and `1` for an empty range. -/
def rangeProd (r : ℤ × ℤ) : ℚ :=
  ∏ x in Finset.Icc r.1 r.2, (x : ℚ)

/-- Value of a list of ranges: the product of the individual range products. -/
def rangesProd (l : List (ℤ × ℤ)) : ℚ :=
  (l.map rangeProd).prod

/-- Value of the fraction represented by a numerator range list and a
denominator range list. -/
def fractionValue (num den : List (ℤ × ℤ)) : ℚ :=
  rangesProd num / rangesProd den

/-- Replace the element at position `i` of a list by `f` applied to it
(identity when `i` is out of bounds). -/
def listModify {α : Type} (f : α → α) : List α → ℕ → List α
  | [], _ => []
  | a :: l, 0 => f a :: l
  | a :: l, n + 1 => a :: listModify f l n

/-- Python list assignment `lst[i] = …` with Python index semantics:
a negative index counts from the end of the list. -/
def pyModify {α : Type} (l : List α) (i : ℤ) (f : α → α) : List α :=
  if 0 ≤ i then listModify f l i.toNat
  else listModify f l (l.length - (-i).toNat)

/-- Python element access `lst[i]` for non-negative indices, with a default
for out-of-bounds access (the source would raise `IndexError` there; the
claims only exercise in-bounds accesses). -/
def pyGet {α : Type} (l : List α) (i : ℕ) (d : α) : α := l.getD i d

/-- Scan of `_simplify_fraction_for_hypergeom_pmf` that finds the range
`[1, U]` with the largest upper bound `U`: the fold carries the pair
`(widest, index)` initialised to `(-1, -1)`, and updates it whenever the
current range has lower bound `1` and an upper bound strictly larger than
the best so far. -/
def findWidestAux : List (ℤ × ℤ) → ℤ → ℤ × ℤ → ℤ × ℤ
  | [], _, s => s
  | r :: rest, i, s =>
    if r.1 = 1 ∧ s.1 < r.2 then findWidestAux rest (i + 1) (r.2, i)
    else findWidestAux rest (i + 1) s

/-- Find the widest unit-leading range of a list, as `(widest, index)`,
returning `(-1, -1)` when no range starts at `1`. -/
def findWidest (l : List (ℤ × ℤ)) : ℤ × ℤ :=
  findWidestAux l 0 (-1, -1)

/-- One cancellation stage of `_simplify_fraction_for_hypergeom_pmf`
(source lines 53-90): locate the widest unit-leading ranges `[1, NU]` and
`[1, DU]` on the two sides and remove their common unit-leading part. -/
def simplifyStage (p : List (ℤ × ℤ) × List (ℤ × ℤ)) :
    List (ℤ × ℤ) × List (ℤ × ℤ) :=
  let wn := (findWidest p.1).1
  let ni := (findWidest p.1).2
  let wd := (findWidest p.2).1
  let di := (findWidest p.2).2
  if wd < wn then
    (pyModify p.1 ni (fun r => (wd + 1, r.2)), pyModify p.2 di (fun r => (r.1, 1)))
  else if wn < wd then
    (pyModify p.1 ni (fun r => (r.1, 1)), pyModify p.2 di (fun r => (wn + 1, r.2)))
  else
    (pyModify p.1 ni (fun r => (r.1, 1)), pyModify p.2 di (fun r => (r.1, 1)))

/-- The greedy simplifier `_simplify_fraction_for_hypergeom_pmf`:
`min (#numerator ranges) (#denominator ranges)` cancellation stages. -/
def simplifyFraction (num den : List (ℤ × ℤ)) :
    List (ℤ × ℤ) × List (ℤ × ℤ) :=
  simplifyStage^[min num.length den.length] (num, den)

/-- Cursor state of the interleaved multiply/divide evaluator
`_compute_fraction_for_hypergeom_pmf`: index and current element for the
numerator and the denominator side, and the running value. -/
structure FracState where
  ni : ℕ
  ne : ℤ
  di : ℕ
  de : ℤ
  pmf : ℚ
deriving Repr, DecidableEq

/-- The main interleaved loop (source lines 116-143): while both sides have
unconsumed ranges, divide by the next denominator element when the running
value exceeds `1`, otherwise multiply by the next numerator element;
advancing to the following range, or off the end, when the current range is
exhausted. -/
def mainLoop (num den : List (ℤ × ℤ)) : ℕ → FracState → FracState
  | 0, s => s
  | fuel + 1, s =>
    if s.ni < num.length ∧ s.di < den.length then
      if 1 < s.pmf then
        let de1 := s.de + 1
        if de1 ≤ (pyGet den s.di (0, 0)).2 then
          mainLoop num den fuel { s with de := de1, pmf := s.pmf / de1 }
        else if s.di + 1 < den.length then
          let de2 := (pyGet den (s.di + 1) (0, 0)).1
          mainLoop num den fuel { s with di := s.di + 1, de := de2, pmf := s.pmf / de2 }
        else
          mainLoop num den fuel { s with di := s.di + 1, de := 1 }
      else
        let ne1 := s.ne + 1
        if ne1 ≤ (pyGet num s.ni (0, 0)).2 then
          mainLoop num den fuel { s with ne := ne1, pmf := s.pmf * ne1 }
        else if s.ni + 1 < num.length then
          let ne2 := (pyGet num (s.ni + 1) (0, 0)).1
          mainLoop num den fuel { s with ni := s.ni + 1, ne := ne2, pmf := s.pmf * ne2 }
        else
          mainLoop num den fuel { s with ni := s.ni + 1, ne := 1 }
    else s

/-- The numerator drain loop (source lines 145-159): after the denominator is
exhausted, multiply the remaining numerator elements into the running value. -/
def drainNumLoop (num : List (ℤ × ℤ)) : ℕ → FracState → FracState
  | 0, s => s
  | fuel + 1, s =>
    if s.ni < num.length then
      let ne1 := s.ne + 1
      if ne1 ≤ (pyGet num s.ni (0, 0)).2 then
        drainNumLoop num fuel { s with ne := ne1, pmf := s.pmf * ne1 }
      else if s.ni + 1 < num.length then
        let ne2 := (pyGet num (s.ni + 1) (0, 0)).1
        drainNumLoop num fuel { s with ni := s.ni + 1, ne := ne2, pmf := s.pmf * ne2 }
      else
        drainNumLoop num fuel { s with ni := s.ni + 1, ne := 1 }
    else s

/-- The denominator drain loop (source lines 161-175): after the numerator is
exhausted, divide the remaining denominator elements out of the running
value. -/
def drainDenLoop (den : List (ℤ × ℤ)) : ℕ → FracState → FracState
  | 0, s => s
  | fuel + 1, s =>
    if s.di < den.length then
      let de1 := s.de + 1
      if de1 ≤ (pyGet den s.di (0, 0)).2 then
        drainDenLoop den fuel { s with de := de1, pmf := s.pmf / de1 }
      else if s.di + 1 < den.length then
        let de2 := (pyGet den (s.di + 1) (0, 0)).1
        drainDenLoop den fuel { s with di := s.di + 1, de := de2, pmf := s.pmf / de2 }
      else
        drainDenLoop den fuel { s with di := s.di + 1, de := 1 }
    else s

/-- Fuel budget that dominates the number of iterations any of the three
loops of `_compute_fraction_for_hypergeom_pmf` can make on one side. -/
def fracFuel (l : List (ℤ × ℤ)) : ℕ :=
  (l.map (fun r => (r.2 - r.1).toNat + 1)).sum + l.length + 1

/-- The interleaved multiply/divide evaluator
`_compute_fraction_for_hypergeom_pmf` (exact-arithmetic model): initialise
the running value to `(first numerator element) / (first denominator
element)`, run the main interleaved loop, then drain whichever side is left
unconsumed. -/
def computeFraction (num den : List (ℤ × ℤ)) : ℚ :=
  let ne0 := (pyGet num 0 (0, 0)).1
  let de0 := (pyGet den 0 (0, 0)).1
  let fuel := fracFuel num + fracFuel den
  let s0 : FracState := ⟨0, ne0, 0, de0, (1 * (ne0 : ℚ)) / (de0 : ℚ)⟩
  let s1 := mainLoop num den fuel s0
  let s2 := if s1.ni < num.length ∧ s1.di = den.length then drainNumLoop num fuel s1 else s1
  let s3 := if s2.ni = num.length ∧ s2.di < den.length then drainDenLoop den fuel s2 else s2
  s3.pmf

/-- Well-formedness of a range list: every range has a positive lower bound
that does not exceed its upper bound. -/
def GoodRanges (l : List (ℤ × ℤ)) : Prop :=
  ∀ r ∈ l, 1 ≤ r.1 ∧ r.1 ≤ r.2

/-- Number of unit-leading ranges (ranges starting at `1`) in a list. -/
def unitCount (l : List (ℤ × ℤ)) : ℕ :=
  l.countP (fun r => r.1 = 1)

/-- Numerator ranges of the exact hypergeometric PMF fraction
(source lines 1159-1163). -/
def pmfNumRanges (M n N : ℤ) : List (ℤ × ℤ) :=
  [(1, max 1 n), (1, max 1 N), (1, max 1 (M - N)), (1, max 1 (M - n))]

/-- Denominator ranges of the exact hypergeometric PMF fraction
(source lines 1164-1169). -/
def pmfDenRanges (k M n N : ℤ) : List (ℤ × ℤ) :=
  [(1, max 1 (n - k)), (1, max 1 (N - k)), (1, max 1 M),
   (1, max 1 (M - N - n + k)), (1, max 1 k)]

/-- The exact PMF evaluator `exact_hypergeom_pmf`: build the range-product
fraction, simplify it greedily, and evaluate it with the interleaved
multiply/divide loop, all in exact arithmetic. -/
def exact_hypergeom_pmf (k M n N : ℤ) : ℚ :=
  let p := simplifyFraction (pmfNumRanges M n N) (pmfDenRanges k M n N)
  computeFraction p.1 p.2

/-! ### Generic list and interval lemmas -/

/-- A `(widest, index)` pair is a valid pointer into `l`: the index is
non-negative, in bounds, and points at the unit-leading range `(1, widest)`. -/
def WidestPtr (l : List (ℤ × ℤ)) (s : ℤ × ℤ) : Prop :=
  0 ≤ s.2 ∧ s.2.toNat < l.length ∧ l.getD s.2.toNat (0, 0) = (1, s.1)

/-- Helper for the statement of claim C9: the hypothesis that every range of
a list has the form `[1, U]` with `U ≥ 1`. -/
def AllUnitRanges (l : List (ℤ × ℤ)) : Prop :=
  ∀ r ∈ l, r.1 = 1 ∧ 1 ≤ r.2

/-- Product of the ranges of `l` from position `j` on. -/
def prodTail (l : List (ℤ × ℤ)) (j : ℕ) : ℚ :=
  ((l.drop j).map rangeProd).prod

/-- Product of the elements not yet consumed by a cursor `(i, e)`:
the elements `e+1 … upper` of the current range and all later ranges. -/
def pendingProd (l : List (ℤ × ℤ)) (i : ℕ) (e : ℤ) : ℚ :=
  if i < l.length then
    (∏ x in Finset.Icc (e + 1) (pyGet l i (0, 0)).2, (x : ℚ)) * prodTail l (i + 1)
  else 1

/-- Number of loop iterations left on one side for cursor `(i, e)`. -/
def pendCount (l : List (ℤ × ℤ)) (i : ℕ) (e : ℤ) : ℕ :=
  if i < l.length then
    ((pyGet l i (0, 0)).2 - e).toNat
      + ((l.drop (i + 1)).map (fun r => (r.2 - r.1).toNat + 1)).sum + 1
  else 0

/-- The cursor never runs below the lower bound of its current range. -/
def CursorLB (l : List (ℤ × ℤ)) (i : ℕ) (e : ℤ) : Prop :=
  i < l.length → (pyGet l i (0, 0)).1 ≤ e

/-- Loop invariant of `_compute_fraction_for_hypergeom_pmf`: the running
value times the pending numerator product over the pending denominator
product is the value of the whole fraction. -/
def FracInv (num den : List (ℤ × ℤ)) (F : ℚ) (s : FracState) : Prop :=
  s.pmf * pendingProd num s.ni s.ne / pendingProd den s.di s.de = F ∧
    CursorLB num s.ni s.ne ∧ CursorLB den s.di s.de

/-- Validity invariant of a hypergeometric query, stated over `ℕ`
(the spec's `0 < M, 0 ≤ N ≤ M, 0 ≤ n ≤ M, 0 ≤ k ≤ N, 0 ≤ n−k ≤ M−N`). -/
def ValidQuery (k M n N : ℕ) : Prop :=
  0 < M ∧ N ≤ M ∧ n ≤ M ∧ k ≤ N ∧ k ≤ n ∧ n - k ≤ M - N

/-- The reference hypergeometric PMF `C(N,i)·C(M−N,n−i)/C(M,n)`, written
directly from the spec's combinatorial formula. -/
def hypergeomPmfQ (M n N i : ℕ) : ℚ :=
  (N.choose i : ℚ) * ((M - N).choose (n - i) : ℚ) / (M.choose n : ℚ)

/-- Python `range(a, b)` over `ℤ`. -/
def intRange (a b : ℤ) : List ℤ :=
  (List.range (b - a).toNat).map (fun j : ℕ => a + (j : ℤ))

/-- Python `range(a, b, -1)` over `ℤ`. -/
def intRangeDown (a b : ℤ) : List ℤ :=
  (List.range (a - b).toNat).map (fun j : ℕ => a - (j : ℤ))

/-- One iteration of the CDF summation loop (source lines 553-578):
multiply the running PMF by `(n-i+1)(N-i+1)`, divide it by `(M-N-n+i)·i`,
halve it at the boundary index `k` in half-boundary mode, and accumulate. -/
def cdfLoopStep (k M n N : ℤ) (half : Bool) (s : ℚ × ℚ) (i : ℤ) : ℚ × ℚ :=
  let pmf1 := s.1 * (((n - i + 1) * (N - i + 1) : ℤ) : ℚ) / (((M - N - n + i) * i : ℤ) : ℚ)
  let pmf2 := if half ∧ i = k then pmf1 / 2 else pmf1
  (pmf2, s.2 + pmf2)

/-- One iteration of the SF summation loop (source lines 634-660). -/
def sfLoopStep (k M n N : ℤ) (half : Bool) (s : ℚ × ℚ) (i : ℤ) : ℚ × ℚ :=
  if k < i ∨ half then
    let pmf1 := s.1 * (((M - N - n + i + 1) * (i + 1) : ℤ) : ℚ) / (((n - i) * (N - i) : ℤ) : ℚ)
    let pmf2 := if half ∧ i = k then pmf1 / 2 else pmf1
    (pmf2, s.2 + pmf2)
  else s

/-- The clamp `value.min(1).max(0)` applied on return
(source lines 668-671). -/
def clamp01 (x : ℚ) : ℚ := max 0 (min 1 x)

/-- Exact-arithmetic model of `_sum_hypergeom_pmfs` in its exact
instantiation (`bool_numerical_approximation = False`): degenerate cases are
settled from the boundary PMF, otherwise the boundary PMF is computed with
the range-product pipeline (the inline construction of source lines 520-542
and 599-621 is exactly the body of `exact_hypergeom_pmf` at the boundary
index) and the tail is accumulated with the multiplicative recurrence. -/
def sum_hypergeom_pmfs (k M n N : ℤ) (half : Bool) (trueCdfFalseSf : Bool) : ℚ :=
  clamp01 <|
    if M = n ∨ M = N ∨ N = k ∨ (M - N = n - k ∧ half) ∨ n = 0 ∨ N = 0 then
      let half_pmf := exact_hypergeom_pmf k M n N / 2
      if M - N = n - k ∧ half then
        if trueCdfFalseSf then (0 : ℚ) + (if half then half_pmf else 0)
        else (1 : ℚ) - (if half then half_pmf else 0)
      else
        if trueCdfFalseSf then (1 : ℚ) - (if half then half_pmf else 0)
        else (0 : ℚ) + (if half then half_pmf else 0)
    else if trueCdfFalseSf then
      let iFirst := max 0 (n + N - M)
      let pmf0 := exact_hypergeom_pmf iFirst M n N
      let pmf1 := if half ∧ k + 1 ≤ iFirst + 1 then pmf0 / 2 else pmf0
      let cdf0 := if iFirst ≤ k then pmf1 else 0
      ((intRange (iFirst + 1) (k + 1)).foldl (cdfLoopStep k M n N half) (pmf1, cdf0)).2
    else
      if ¬half ∧ k = n then 0
      else
        let iLast := min n N
        let pmf0 := exact_hypergeom_pmf iLast M n N
        let pmf1 := if half ∧ iLast - 1 ≤ k - 1 then pmf0 / 2 else pmf0
        let sf0 := if k < iLast then pmf1 else if half ∧ iLast = k then pmf1 else 0
        ((intRangeDown (iLast - 1) (k - 1)).foldl (sfLoopStep k M n N half) (pmf1, sf0)).2

/-- `exact_hypergeom_min_cdf_sf` (source lines 2340-2421) in the exact
Decimal idealization: estimate which tail is cheaper from the skewness-based
iteration costs, compute that tail with half-boundary weighting, return it
outright if it is below one half, and otherwise also compute the other tail
and return the minimum of the two.  (The source binds each `_sum_hypergeom_pmfs`
call to a local variable; the calls are pure, so inlining them is
equivalent.) -/
def exact_hypergeom_min_cdf_sf (k M n N : ℤ) : ℚ :=
  if min (N + N) (n + n) + max 1 ((k - 1) * 4)
      ≤ min (M - N + M - N) (n + n) + max 1 ((n - k - 1) * 4) then
    if sum_hypergeom_pmfs k M n N true true < 1 / 2 then
      sum_hypergeom_pmfs k M n N true true
    else
      min (sum_hypergeom_pmfs k M n N true true) (sum_hypergeom_pmfs k M n N true false)
  else
    if sum_hypergeom_pmfs k M n N true false < 1 / 2 then
      sum_hypergeom_pmfs k M n N true false
    else
      min (sum_hypergeom_pmfs k M n N true true) (sum_hypergeom_pmfs k M n N true false)

/-- `choose_hypergeom_algorithm` (source lines 954-1052).  All iteration
costs and budgets are integers and are modelled exactly.  The final branch
of the CDF/SF mode decides between the normal-Taylor approximation (code 3)
and the library reference (code 4) with floating-point threshold tests on
`n/M`, `N/M`, `mu` and `sigma`; that test's outcome is passed in as the
oracle argument `normalOracle`, which is independent of every iteration
budget. -/
def choose_hypergeom_algorithm (k M n N : ℤ)
    (exactBudget lanczosBudget spougeBudget : ℤ)
    (normalOracle : Bool)
    (choose_for_pmf : Bool) (trueCdfFalseSfNoneMin : Option Bool) : ℤ :=
  if choose_for_pmf then
    if (if k ≤ n - k then k + k + (N + N) else (n - k) + (n - k) + (N + N))
        ≤ exactBudget then 0
    else if (13 - 1) * 9 ≤ lanczosBudget then 1
    else if (20 - 1) * 9 ≤ spougeBudget then 2
    else 4
  else
    if (match trueCdfFalseSfNoneMin with
        | none => min (N + N) (n + n) + max 1 ((k - 1) * 4)
            + min (M - N + M - N) (n + n) + max 1 ((n - k - 1) * 4)
        | some true => min (N + N) (n + n) + max 1 ((k - 1) * 4)
        | some false => min (M - N + M - N) (n + n) + max 1 ((n - k - 1) * 4))
        ≤ exactBudget then 0
    else if (13 - 1) * 9 + max 1 ((min k (n - k) - 1) * 4) ≤ lanczosBudget then 1
    else if (20 - 1) * 9 + max 1 ((min k (n - k) - 1) * 4) ≤ spougeBudget then 2
    else if normalOracle then 3 else 4

/-- The branch structure of `custom_hypergeom_pmf` (source lines 1059-1134):
which handler runs for each selector code.  Every handler returns a numeric
probability value; only the final fallthrough returns `None`. -/
def custom_hypergeom_pmf_dispatch (alg : ℤ) : Option ℤ :=
  if alg = 0 then some 0
  else if alg = 1 then some 1
  else if alg = 2 then some 2
  else if alg = 4 then some 4
  else none

/-- The branch structure of `custom_hypergeom_cdf` (source lines 1437-1534).
The third arm (source line 1500) reads `elif approx_spouge_hypergeom_cdf == 2`,
comparing a function object with the integer `2` — in Python that comparison
is always false, which the model records as the literal `False` condition
(its body would run the Lanczos handler, another copy-and-paste slip). -/
def custom_hypergeom_cdf_dispatch (alg : ℤ) : Option ℤ :=
  if alg = 0 then some 0
  else if alg = 1 then some 1
  else if False then some 1
  else if alg = 3 then some 3
  else if alg = 4 then some 4
  else none

/-- Exactness rank of a selector code, following the order
Exact (0) > Lanczos (1) > Spouge (2) > NormalTaylor (3) / LibraryReference (4). -/
def exactnessRank (a : ℤ) : ℤ :=
  if a = 0 then 3 else if a = 1 then 2 else if a = 2 then 1 else 0

/-- State of the Taylor summation loop of
`normal_taylor_hypergeom_cdf_sf` (source lines 818-830). -/
structure TaylorState where
  integral : ℚ
  currPow : ℕ
  cumPow : ℚ
  prevAdj : ℚ

/-- One iteration of the Taylor summation loop (source lines 825-830):
`prev_coeff = 1/(cum_pow·(curr_pow+1))`, `prev_adj = prev_coeff·|z|^(curr_pow+1)`,
`integral += prev_adj`, `curr_pow += 2`, `cum_pow *= -curr_pow`. -/
def taylorStep (az : ℚ) (s : TaylorState) : TaylorState :=
  { integral := s.integral + (1 / (s.cumPow * ((s.currPow : ℚ) + 1))) * az ^ (s.currPow + 1)
    currPow := s.currPow + 2
    cumPow := s.cumPow * (-(((s.currPow : ℚ) + 2)))
    prevAdj := (1 / (s.cumPow * ((s.currPow : ℚ) + 1))) * az ^ (s.currPow + 1) }

/-- The Taylor summation `while ctx.abs(prev_adj) >= err_toler` loop
(source line 824), with an explicit fuel bound that the source does not
have: `none` means the loop is still running when the fuel runs out. -/
def taylorLoop (az tol : ℚ) : ℕ → TaylorState → Option TaylorState
  | 0, s => if |s.prevAdj| ≥ tol then none else some s
  | (fuel + 1), s =>
    if |s.prevAdj| ≥ tol then taylorLoop az tol fuel (taylorStep az s) else some s

/-- Initial loop state (source lines 818-822):
`integral = |z|`, `curr_pow = 2`, `cum_pow = -2`, `prev_adj = -|z|^1`. -/
def taylorInit (az : ℚ) : TaylorState := ⟨az, 2, -2, -az⟩

theorem listModify_length {α : Type} (f : α → α) :
    ∀ (l : List α) (n : ℕ), (listModify f l n).length = l.length := by
  intro l
  induction l with
  | nil => intro n; rfl
  | cons a t ih =>
    intro n
    cases n with
    | zero => rfl
    | succ m => simpa [listModify] using ih m

theorem mem_listModify {α : Type} (f : α → α) :
    ∀ (l : List α) (n : ℕ) (x : α), x ∈ listModify f l n →
      x ∈ l ∨ (n < l.length ∧ x = f (l.getD n x)) := by
  intro l
  induction l with
  | nil => intro n x hx; exact absurd hx (by simp [listModify])
  | cons a t ih =>
    intro n x hx
    cases n with
    | zero =>
      rcases List.mem_cons.mp hx with h | h
      · right; exact ⟨by simp, by simpa [List.getD] using h⟩
      · left; exact List.mem_cons_of_mem a h
    | succ m =>
      rcases List.mem_cons.mp hx with h | h
      · left; exact h ▸ List.mem_cons_self a t
      · rcases ih m x h with h2 | h2
        · left; exact List.mem_cons_of_mem a h2
        · right; exact ⟨by simpa using h2.1, by simpa [List.getD] using h2.2⟩

theorem getD_listModify_lt {α : Type} (f : α → α) (d : α) :
    ∀ (l : List α) (n : ℕ), n < l.length →
      (listModify f l n).getD n d = f (l.getD n d) := by
  intro l
  induction l with
  | nil => intro n hn; simp at hn
  | cons a t ih =>
    intro n hn
    cases n with
    | zero => rfl
    | succ m => simpa [listModify, List.getD] using ih m (by simpa using hn)

theorem countP_listModify_ge {α : Type} (f : α → α) (p : α → Bool) :
    ∀ (l : List α) (n : ℕ), l.countP p ≤ (listModify f l n).countP p + 1 := by
  intro l
  induction l with
  | nil => intro n; simp [listModify]
  | cons a t ih =>
    intro n
    cases n with
    | zero =>
      simp only [listModify, List.countP_cons]
      rcases Bool.eq_false_or_eq_true (p a) with h | h <;>
        rcases Bool.eq_false_or_eq_true (p (f a)) with h2 | h2 <;>
          simp only [h, h2, if_true, if_false, Bool.false_eq_true] <;> omega
    | succ m =>
      simp only [listModify, List.countP_cons]
      have := ih m
      omega

theorem getD_mem_of_lt {α : Type} (l : List α) (n : ℕ) (d : α)
    (h : n < l.length) : l.getD n d ∈ l := by
  rw [List.getD_eq_getElem l d h]
  exact List.getElem_mem h

/-- Splitting a product over a consecutive-integer interval at an interior
point. -/
theorem prod_Icc_split (a b c : ℤ) (h1 : a ≤ b) (h2 : b ≤ c) :
    (∏ x in Finset.Icc a b, (x : ℚ)) * ∏ x in Finset.Icc (b + 1) c, (x : ℚ)
      = ∏ x in Finset.Icc a c, (x : ℚ) := by
  rw [← Finset.prod_union ?hd]
  case hd =>
    simp only [Finset.disjoint_left, Finset.mem_Icc]
    intro x hx hx2
    omega
  congr 1
  ext x
  simp only [Finset.mem_union, Finset.mem_Icc]
  omega

theorem rangeProd_pos {r : ℤ × ℤ} (h : 1 ≤ r.1) : 0 < rangeProd r := by
  refine Finset.prod_pos ?_
  intro x hx
  have := (Finset.mem_Icc.mp hx).1
  exact_mod_cast by omega

theorem rangesProd_pos {l : List (ℤ × ℤ)} (h : GoodRanges l) :
    0 < rangesProd l := by
  induction l with
  | nil => norm_num [rangesProd]
  | cons a t ih =>
    have ha := h a (List.mem_cons_self a t)
    have ht : GoodRanges t := fun r hr => h r (List.mem_cons_of_mem a hr)
    have h1 : 0 < rangeProd a := rangeProd_pos ha.1
    have h2 := ih ht
    simpa [rangesProd] using mul_pos h1 (by simpa [rangesProd] using h2)

theorem rangeProd_unit_one : rangeProd (1, 1) = 1 := by
  simp [rangeProd]

/-- Multiplicative effect of modifying one element of a range list. -/
theorem rangesProd_listModify (f : ℤ × ℤ → ℤ × ℤ) :
    ∀ (l : List (ℤ × ℤ)) (n : ℕ), n < l.length →
      rangesProd (listModify f l n) * rangeProd (l.getD n (0, 0))
        = rangesProd l * rangeProd (f (l.getD n (0, 0))) := by
  intro l
  induction l with
  | nil => intro n hn; simp at hn
  | cons a t ih =>
    intro n hn
    cases n with
    | zero =>
      simp only [listModify, List.getD_cons_zero]
      simp only [rangesProd, List.map_cons, List.prod_cons]
      ring
    | succ m =>
      have hm : m < t.length := by simpa using hn
      have h := ih m hm
      simp only [listModify, List.getD_cons_succ, rangesProd, List.map_cons,
        List.prod_cons] at h ⊢
      rw [mul_assoc, mul_assoc, h]

/-! ### Correctness of the widest-range scan -/

theorem findWidestAux_ptr (L : List (ℤ × ℤ)) :
    ∀ (t : List (ℤ × ℤ)) (i0 : ℕ) (s : ℤ × ℤ),
      t = L.drop i0 →
      ((∃ r ∈ t, r.1 = 1 ∧ s.1 < r.2) ∨ WidestPtr L s) →
      WidestPtr L (findWidestAux t (i0 : ℤ) s) := by
  intro t
  induction t with
  | nil =>
    intro i0 s _ hs
    rcases hs with h | h
    · obtain ⟨r, hr, _⟩ := h
      exact absurd hr (List.not_mem_nil r)
    · simpa [findWidestAux] using h
  | cons r rest ih =>
    intro i0 s hdrop hs
    have hi0 : i0 < L.length := by
      by_contra hge
      rw [List.drop_eq_nil_of_le (by omega)] at hdrop
      exact absurd hdrop (by simp)
    have hcons := List.drop_eq_getElem_cons hi0
    rw [hcons] at hdrop
    have hr_eq : L.getD i0 (0, 0) = r := by
      rw [List.getD_eq_getElem L (0, 0) hi0]
      exact (List.cons_eq_cons.mp hdrop.symm).1
    have hrest : rest = L.drop (i0 + 1) := (List.cons_eq_cons.mp hdrop).2
    simp only [findWidestAux]
    by_cases hc : r.1 = 1 ∧ s.1 < r.2
    · rw [if_pos hc]
      have : ((i0 : ℤ) + 1) = ((i0 + 1 : ℕ) : ℤ) := by push_cast; ring
      rw [this]
      refine ih (i0 + 1) (r.2, i0) hrest (Or.inr ?_)
      refine ⟨by positivity, ?_, ?_⟩
      · simpa using hi0
      · show L.getD (Int.toNat i0) (0, 0) = (1, r.2)
        rw [Int.toNat_natCast, hr_eq]
        exact Prod.ext hc.1 rfl
    · rw [if_neg hc]
      have : ((i0 : ℤ) + 1) = ((i0 + 1 : ℕ) : ℤ) := by push_cast; ring
      rw [this]
      refine ih (i0 + 1) s hrest ?_
      rcases hs with h | h
      · obtain ⟨r', hr', h1, h2⟩ := h
        rcases List.mem_cons.mp hr' with he | hm
        · exact absurd ⟨he ▸ h1, he ▸ h2⟩ hc
        · exact Or.inl ⟨r', hm, h1, h2⟩
      · exact Or.inr h

theorem findWidest_ptr {l : List (ℤ × ℤ)} (hG : GoodRanges l)
    (h : ∃ r ∈ l, r.1 = 1) : WidestPtr l (findWidest l) := by
  obtain ⟨r, hr, hr1⟩ := h
  have hr2 : (1 : ℤ) ≤ r.2 := hr1 ▸ (hG r hr).1.trans ((hG r hr).2)
  refine findWidestAux_ptr l l 0 (-1, -1) (by simp) (Or.inl ⟨r, hr, hr1, ?_⟩)
  show (-1 : ℤ) < r.2
  omega

theorem widest_ge_one {l : List (ℤ × ℤ)} (hG : GoodRanges l) {s : ℤ × ℤ}
    (hp : WidestPtr l s) : 1 ≤ s.1 := by
  have hmem := getD_mem_of_lt l s.2.toNat (0, 0) hp.2.1
  rw [hp.2.2] at hmem
  exact (hG (1, s.1) hmem).2

/-! ### Invariance of one simplification stage -/

theorem pyModify_nonneg {α : Type} (l : List α) (i : ℤ) (f : α → α)
    (h : 0 ≤ i) : pyModify l i f = listModify f l i.toNat := by
  simp [pyModify, h]

theorem cross_div_eq {A B A' B' : ℚ} (hB : B ≠ 0) (hB' : B' ≠ 0)
    (h : A' * B = A * B') : A' / B' = A / B := by
  rw [div_eq_div_iff hB' hB]
  exact h

theorem good_listModify {l : List (ℤ × ℤ)} (hG : GoodRanges l)
    (f : ℤ × ℤ → ℤ × ℤ) (n : ℕ)
    (hf : 1 ≤ (f (l.getD n (0, 0))).1 ∧ (f (l.getD n (0, 0))).1 ≤ (f (l.getD n (0, 0))).2) :
    GoodRanges (listModify f l n) := by
  intro r hr
  rcases mem_listModify f l n r hr with h | ⟨hlt, he⟩
  · exact hG r h
  · have : l.getD n r = l.getD n (0, 0) := by
      rw [List.getD_eq_getElem l r hlt, List.getD_eq_getElem l (0, 0) hlt]
    rw [he, this]
    exact hf

theorem unitCount_listModify_ge (l : List (ℤ × ℤ)) (f : ℤ × ℤ → ℤ × ℤ)
    (n : ℕ) : unitCount l ≤ unitCount (listModify f l n) + 1 :=
  countP_listModify_ge f _ l n

theorem simplifyStage_spec {num den : List (ℤ × ℤ)}
    (hGn : GoodRanges num) (hGd : GoodRanges den)
    (hn : ∃ r ∈ num, r.1 = 1) (hd : ∃ r ∈ den, r.1 = 1) :
    fractionValue (simplifyStage (num, den)).1 (simplifyStage (num, den)).2
        = fractionValue num den ∧
      GoodRanges (simplifyStage (num, den)).1 ∧
      GoodRanges (simplifyStage (num, den)).2 ∧
      (simplifyStage (num, den)).1.length = num.length ∧
      (simplifyStage (num, den)).2.length = den.length ∧
      unitCount num ≤ unitCount (simplifyStage (num, den)).1 + 1 ∧
      unitCount den ≤ unitCount (simplifyStage (num, den)).2 + 1 := by
  rcases hFN : findWidest num with ⟨wn, ni⟩
  rcases hFD : findWidest den with ⟨wd, di⟩
  have hpn : WidestPtr num (wn, ni) := hFN ▸ findWidest_ptr hGn hn
  have hpd : WidestPtr den (wd, di) := hFD ▸ findWidest_ptr hGd hd
  have hwn1 : (1 : ℤ) ≤ wn := widest_ge_one hGn hpn
  have hwd1 : (1 : ℤ) ≤ wd := widest_ge_one hGd hpd
  obtain ⟨hni0, hniL, hnig⟩ := hpn
  obtain ⟨hdi0, hdiL, hdig⟩ := hpd
  simp only at hni0 hniL hnig hdi0 hdiL hdig
  have hBn : (0 : ℚ) < rangesProd num := rangesProd_pos hGn
  have hBd : (0 : ℚ) < rangesProd den := rangesProd_pos hGd
  have hstage : simplifyStage (num, den) =
      if wd < wn then
        (pyModify num ni (fun r => (wd + 1, r.2)), pyModify den di (fun r => (r.1, 1)))
      else if wn < wd then
        (pyModify num ni (fun r => (r.1, 1)), pyModify den di (fun r => (wn + 1, r.2)))
      else
        (pyModify num ni (fun r => (r.1, 1)), pyModify den di (fun r => (r.1, 1))) := by
    simp only [simplifyStage, hFN, hFD]
  rcases lt_trichotomy wd wn with hcmp | hcmp | hcmp
  · -- numerator range is wider: shrink it and neutralise the denominator range
    rw [hstage, if_pos hcmp]
    rw [pyModify_nonneg num ni _ hni0, pyModify_nonneg den di _ hdi0]
    have hEn := rangesProd_listModify (fun r => (wd + 1, r.2)) num ni.toNat hniL
    have hEd := rangesProd_listModify (fun r => (r.1, 1)) den di.toNat hdiL
    rw [hnig] at hEn
    rw [hdig] at hEd
    simp only [rangeProd_unit_one, mul_one] at hEd
    have hsplit : rangeProd ((1 : ℤ), wd) * rangeProd (wd + 1, wn) = rangeProd ((1 : ℤ), wn) :=
      prod_Icc_split 1 wd wn hwd1 (le_of_lt hcmp)
    have hGn' : GoodRanges (listModify (fun r => (wd + 1, r.2)) num ni.toNat) := by
      refine good_listModify hGn _ _ ?_
      rw [hnig]
      exact ⟨by omega, by omega⟩
    have hGd' : GoodRanges (listModify (fun r => (r.1, 1)) den di.toNat) := by
      refine good_listModify hGd _ _ ?_
      rw [hdig]
      exact ⟨le_refl 1, le_refl 1⟩
    have hB' : (0 : ℚ) < rangesProd (listModify (fun r => (r.1, 1)) den di.toNat) :=
      rangesProd_pos hGd'
    refine ⟨?_, hGn', hGd', listModify_length _ num _, listModify_length _ den _,
      unitCount_listModify_ge num _ _, unitCount_listModify_ge den _ _⟩
    refine cross_div_eq (ne_of_gt hBd) (ne_of_gt hB') ?_
    have hXpos : (0 : ℚ) < rangeProd ((1 : ℤ), wn) := rangeProd_pos (by norm_num)
    refine mul_right_cancel₀ (ne_of_gt hXpos) ?_
    linear_combination rangesProd den * hEn -
      rangesProd num * rangeProd (wd + 1, wn) * hEd +
      rangesProd num * rangesProd (listModify (fun r => (r.1, 1)) den di.toNat) * hsplit
  · -- equal widths: neutralise both ranges
    rw [hstage, if_neg (by omega), if_neg (by omega)]
    rw [pyModify_nonneg num ni _ hni0, pyModify_nonneg den di _ hdi0]
    have hEn := rangesProd_listModify (fun r => (r.1, 1)) num ni.toNat hniL
    have hEd := rangesProd_listModify (fun r => (r.1, 1)) den di.toNat hdiL
    rw [hnig] at hEn
    rw [hdig] at hEd
    simp only [rangeProd_unit_one, mul_one] at hEn hEd
    have hGn' : GoodRanges (listModify (fun r => (r.1, 1)) num ni.toNat) := by
      refine good_listModify hGn _ _ ?_
      rw [hnig]
      exact ⟨le_refl 1, le_refl 1⟩
    have hGd' : GoodRanges (listModify (fun r => (r.1, 1)) den di.toNat) := by
      refine good_listModify hGd _ _ ?_
      rw [hdig]
      exact ⟨le_refl 1, le_refl 1⟩
    have hB' : (0 : ℚ) < rangesProd (listModify (fun r => (r.1, 1)) den di.toNat) :=
      rangesProd_pos hGd'
    refine ⟨?_, hGn', hGd', listModify_length _ num _, listModify_length _ den _,
      unitCount_listModify_ge num _ _, unitCount_listModify_ge den _ _⟩
    refine cross_div_eq (ne_of_gt hBd) (ne_of_gt hB') ?_
    have hwdn : wd = wn := hcmp
    rw [hwdn] at hEd
    linear_combination rangesProd (listModify (fun r => (r.1, 1)) den di.toNat) * hEn -
      rangesProd (listModify (fun r => (r.1, 1)) num ni.toNat) * hEd
  · -- denominator range is wider: neutralise the numerator range and shrink it
    rw [hstage, if_neg (by omega), if_pos hcmp]
    rw [pyModify_nonneg num ni _ hni0, pyModify_nonneg den di _ hdi0]
    have hEn := rangesProd_listModify (fun r => (r.1, 1)) num ni.toNat hniL
    have hEd := rangesProd_listModify (fun r => (wn + 1, r.2)) den di.toNat hdiL
    rw [hnig] at hEn
    rw [hdig] at hEd
    simp only [rangeProd_unit_one, mul_one] at hEn
    have hsplit : rangeProd ((1 : ℤ), wn) * rangeProd (wn + 1, wd) = rangeProd ((1 : ℤ), wd) :=
      prod_Icc_split 1 wn wd hwn1 (le_of_lt hcmp)
    have hGn' : GoodRanges (listModify (fun r => (r.1, 1)) num ni.toNat) := by
      refine good_listModify hGn _ _ ?_
      rw [hnig]
      exact ⟨le_refl 1, le_refl 1⟩
    have hGd' : GoodRanges (listModify (fun r => (wn + 1, r.2)) den di.toNat) := by
      refine good_listModify hGd _ _ ?_
      rw [hdig]
      exact ⟨by omega, by omega⟩
    have hB' : (0 : ℚ) < rangesProd (listModify (fun r => (wn + 1, r.2)) den di.toNat) :=
      rangesProd_pos hGd'
    refine ⟨?_, hGn', hGd', listModify_length _ num _, listModify_length _ den _,
      unitCount_listModify_ge num _ _, unitCount_listModify_ge den _ _⟩
    refine cross_div_eq (ne_of_gt hBd) (ne_of_gt hB') ?_
    have hXpos : (0 : ℚ) < rangeProd ((1 : ℤ), wd) := rangeProd_pos (by norm_num)
    have hEd' : rangesProd (listModify (fun r => (wn + 1, r.2)) den di.toNat) *
        rangeProd ((1 : ℤ), wd) = rangesProd den * rangeProd (wn + 1, wd) := by
      simpa using hEd
    refine mul_right_cancel₀ (ne_of_gt hXpos) ?_
    linear_combination (rangesProd den * rangeProd (wn + 1, wd)) * hEn -
      rangesProd num * hEd' -
      (rangesProd (listModify (fun r => (r.1, 1)) num ni.toNat) * rangesProd den) * hsplit

/-! ### Invariance of the whole greedy simplification -/

theorem exists_unit_of_unitCount_pos {l : List (ℤ × ℤ)} (h : 0 < unitCount l) :
    ∃ r ∈ l, r.1 = 1 := by
  obtain ⟨r, hr, hp⟩ := List.countP_pos_iff.mp h
  exact ⟨r, hr, by simpa using hp⟩

theorem unitCount_of_all_unit {l : List (ℤ × ℤ)} (h : ∀ r ∈ l, r.1 = 1) :
    unitCount l = l.length := by
  unfold unitCount
  induction l with
  | nil => rfl
  | cons a t ih =>
    rw [List.countP_cons]
    have ha : a.1 = 1 := h a (List.mem_cons_self a t)
    have ht := ih (fun r hr => h r (List.mem_cons_of_mem a hr))
    simp [ha, ht]

theorem simplifyStages_spec :
    ∀ (t : ℕ) (num den : List (ℤ × ℤ)),
      GoodRanges num → GoodRanges den → t ≤ unitCount num → t ≤ unitCount den →
      fractionValue (simplifyStage^[t] (num, den)).1 (simplifyStage^[t] (num, den)).2
          = fractionValue num den ∧
        GoodRanges (simplifyStage^[t] (num, den)).1 ∧
        GoodRanges (simplifyStage^[t] (num, den)).2 ∧
        (simplifyStage^[t] (num, den)).1.length = num.length ∧
        (simplifyStage^[t] (num, den)).2.length = den.length := by
  intro t
  induction t with
  | zero =>
    intro num den hGn hGd _ _
    exact ⟨rfl, hGn, hGd, rfl, rfl⟩
  | succ m ih =>
    intro num den hGn hGd hun hud
    have hn := exists_unit_of_unitCount_pos (l := num) (by omega)
    have hd := exists_unit_of_unitCount_pos (l := den) (by omega)
    obtain ⟨hfrac, hGn', hGd', hln, hld, hcn, hcd⟩ := simplifyStage_spec hGn hGd hn hd
    rw [Function.iterate_succ_apply]
    have h1 : simplifyStage (num, den) =
        ((simplifyStage (num, den)).1, (simplifyStage (num, den)).2) := rfl
    rw [h1]
    obtain ⟨ih1, ih2, ih3, ih4, ih5⟩ := ih (simplifyStage (num, den)).1
      (simplifyStage (num, den)).2 hGn' hGd' (by omega) (by omega)
    exact ⟨ih1.trans hfrac, ih2, ih3, ih4.trans hln, ih5.trans hld⟩

/-- Claim C9 — `_simplify_fraction_for_hypergeom_pmf` preserves the value of
the represented fraction: for non-empty numerator and denominator range
lists in which every range has the form `[1, U]` with `U ≥ 1`, the product
of all numerator-range products divided by the product of all
denominator-range products is the same before and after simplification. -/
theorem simplify_fraction_preserves_value
    (num den : List (ℤ × ℤ)) (hnum : num ≠ []) (hden : den ≠ [])
    (hUn : AllUnitRanges num) (hUd : AllUnitRanges den) :
    fractionValue (simplifyFraction num den).1 (simplifyFraction num den).2
      = fractionValue num den := by
  have hGn : GoodRanges num := fun r hr => ⟨(hUn r hr).1.ge, (hUn r hr).1 ▸ (hUn r hr).2⟩
  have hGd : GoodRanges den := fun r hr => ⟨(hUd r hr).1.ge, (hUd r hr).1 ▸ (hUd r hr).2⟩
  have hcn : unitCount num = num.length := unitCount_of_all_unit (fun r hr => (hUn r hr).1)
  have hcd : unitCount den = den.length := unitCount_of_all_unit (fun r hr => (hUd r hr).1)
  exact (simplifyStages_spec (min num.length den.length) num den hGn hGd
    (by omega) (by omega)).1

/-- Witness for C9 at a concrete input: two all-unit range lists. -/
theorem simplify_fraction_preserves_value_witness :
    fractionValue (simplifyFraction [(1, 3), (1, 2)] [(1, 4), (1, 1)]).1
        (simplifyFraction [(1, 3), (1, 2)] [(1, 4), (1, 1)]).2
      = fractionValue [(1, 3), (1, 2)] [(1, 4), (1, 1)] :=
  simplify_fraction_preserves_value [(1, 3), (1, 2)] [(1, 4), (1, 1)]
    (by simp) (by simp)
    (by intro r hr; fin_cases hr <;> exact ⟨rfl, by norm_num⟩)
    (by intro r hr; fin_cases hr <;> exact ⟨rfl, by norm_num⟩)

/-! ### Correctness of the interleaved multiply/divide evaluator -/

theorem prod_Icc_cons (a b : ℤ) (h : a ≤ b) :
    (∏ x in Finset.Icc a b, (x : ℚ)) = a * ∏ x in Finset.Icc (a + 1) b, (x : ℚ) := by
  rw [← prod_Icc_split a a b (le_refl a) h, Finset.Icc_self, Finset.prod_singleton]

theorem prodTail_cons {l : List (ℤ × ℤ)} {j : ℕ} (h : j < l.length) :
    prodTail l j = rangeProd (pyGet l j (0, 0)) * prodTail l (j + 1) := by
  unfold prodTail pyGet
  rw [List.drop_eq_getElem_cons h, List.map_cons, List.prod_cons,
    List.getD_eq_getElem l (0, 0) h]

theorem prodTail_of_len {l : List (ℤ × ℤ)} {j : ℕ} (h : l.length ≤ j) :
    prodTail l j = 1 := by
  unfold prodTail
  rw [List.drop_eq_nil_of_le h]
  rfl

theorem prodTail_pos {l : List (ℤ × ℤ)} (hG : GoodRanges l) (j : ℕ) :
    0 < prodTail l j := by
  have hGd : GoodRanges (l.drop j) := fun r hr =>
    hG r ((List.drop_sublist j l).mem hr)
  exact rangesProd_pos hGd

theorem pendingProd_pos {l : List (ℤ × ℤ)} (hG : GoodRanges l) {i : ℕ} {e : ℤ}
    (hc : CursorLB l i e) : 0 < pendingProd l i e := by
  unfold pendingProd
  by_cases h : i < l.length
  · rw [if_pos h]
    refine mul_pos (Finset.prod_pos ?_) (prodTail_pos hG (i + 1))
    intro x hx
    have hx1 := (Finset.mem_Icc.mp hx).1
    have hmem : pyGet l i (0, 0) ∈ l := getD_mem_of_lt l i (0, 0) h
    have hlow := (hG _ hmem).1
    have hce := hc h
    have hxz : (0 : ℤ) < x := by omega
    exact_mod_cast hxz
  · rw [if_neg h]; norm_num

theorem pendCount_pos {l : List (ℤ × ℤ)} {i : ℕ} (e : ℤ) (h : i < l.length) :
    0 < pendCount l i e := by
  unfold pendCount
  rw [if_pos h]
  omega

theorem tailSum_cons {l : List (ℤ × ℤ)} {j : ℕ} (h : j < l.length)
    (w : ℤ × ℤ → ℕ) :
    ((l.drop j).map w).sum = w (pyGet l j (0, 0)) + ((l.drop (j + 1)).map w).sum := by
  unfold pyGet
  rw [List.drop_eq_getElem_cons h, List.map_cons, List.sum_cons,
    List.getD_eq_getElem l (0, 0) h]

theorem pendingProd_consume {l : List (ℤ × ℤ)} {i : ℕ} {e : ℤ}
    (h : i < l.length) (hle : e + 1 ≤ (pyGet l i (0, 0)).2) :
    pendingProd l i e = ((e + 1 : ℤ) : ℚ) * pendingProd l i (e + 1) := by
  unfold pendingProd
  rw [if_pos h, if_pos h, prod_Icc_cons (e + 1) _ hle]
  push_cast
  ring

theorem pendCount_consume {l : List (ℤ × ℤ)} {i : ℕ} {e : ℤ}
    (h : i < l.length) (hle : e + 1 ≤ (pyGet l i (0, 0)).2) :
    pendCount l i e = pendCount l i (e + 1) + 1 := by
  unfold pendCount
  rw [if_pos h, if_pos h]
  omega

theorem pendingProd_advance {l : List (ℤ × ℤ)} (hG : GoodRanges l) {i : ℕ} {e : ℤ}
    (h : i < l.length) (h2 : i + 1 < l.length) (hgt : (pyGet l i (0, 0)).2 < e + 1) :
    pendingProd l i e
      = ((pyGet l (i + 1) (0, 0)).1 : ℚ) * pendingProd l (i + 1) (pyGet l (i + 1) (0, 0)).1 := by
  have hmem : pyGet l (i + 1) (0, 0) ∈ l := getD_mem_of_lt l (i + 1) (0, 0) h2
  have hgood := hG _ hmem
  unfold pendingProd
  rw [if_pos h, if_pos h2]
  have hempty : Finset.Icc (e + 1) (pyGet l i (0, 0)).2 = ∅ := by
    rw [Finset.Icc_eq_empty_iff]
    omega
  rw [hempty, Finset.prod_empty, one_mul, prodTail_cons h2]
  have hsplit : rangeProd (pyGet l (i + 1) (0, 0))
      = ((pyGet l (i + 1) (0, 0)).1 : ℚ)
        * ∏ x in Finset.Icc ((pyGet l (i + 1) (0, 0)).1 + 1) (pyGet l (i + 1) (0, 0)).2, (x : ℚ) := by
    unfold rangeProd
    exact prod_Icc_cons _ _ hgood.2
  rw [hsplit]
  ring

theorem pendCount_advance {l : List (ℤ × ℤ)} {i : ℕ} {e : ℤ}
    (h : i < l.length) (h2 : i + 1 < l.length) (hgt : (pyGet l i (0, 0)).2 < e + 1) :
    pendCount l i e = pendCount l (i + 1) (pyGet l (i + 1) (0, 0)).1 + 1 := by
  unfold pendCount
  rw [if_pos h, if_pos h2]
  rw [tailSum_cons h2]
  omega

theorem pendingProd_exhaust {l : List (ℤ × ℤ)} {i : ℕ} {e : ℤ}
    (h : i < l.length) (h2 : l.length ≤ i + 1) (hgt : (pyGet l i (0, 0)).2 < e + 1) :
    pendingProd l i e = 1 := by
  unfold pendingProd
  rw [if_pos h]
  have hempty : Finset.Icc (e + 1) (pyGet l i (0, 0)).2 = ∅ := by
    rw [Finset.Icc_eq_empty_iff]
    omega
  rw [hempty, Finset.prod_empty, one_mul, prodTail_of_len h2]

theorem pendingProd_of_len {l : List (ℤ × ℤ)} {i : ℕ} (e : ℤ)
    (h : l.length ≤ i) : pendingProd l i e = 1 := by
  unfold pendingProd
  rw [if_neg (by omega)]

theorem pendCount_exhaust {l : List (ℤ × ℤ)} {i : ℕ} {e : ℤ}
    (h : i < l.length) (h2 : l.length ≤ i + 1) (hgt : (pyGet l i (0, 0)).2 < e + 1) :
    pendCount l i e = 1 := by
  unfold pendCount
  rw [if_pos h]
  have hdrop : l.drop (i + 1) = [] := List.drop_eq_nil_of_le h2
  rw [hdrop]
  simp only [List.map_nil, List.sum_nil]
  omega

theorem pendCount_of_len {l : List (ℤ × ℤ)} {i : ℕ} (e : ℤ)
    (h : l.length ≤ i) : pendCount l i e = 0 := by
  unfold pendCount
  rw [if_neg (by omega)]

theorem inv_div_step {pmf Pn Pd Pd' c F : ℚ} (hPd : Pd = c * Pd')
    (hF : pmf * Pn / Pd = F) : pmf / c * Pn / Pd' = F := by
  rw [← hF, hPd]
  by_cases hc : c = 0
  · subst hc
    simp
  · field_simp

theorem inv_mul_step {pmf Pn Pn' Pd c F : ℚ} (hPn : Pn = c * Pn')
    (hF : pmf * Pn / Pd = F) : pmf * c * Pn' / Pd = F := by
  rw [← hF, hPn]
  ring

theorem mainLoop_spec (num den : List (ℤ × ℤ)) (hGn : GoodRanges num)
    (hGd : GoodRanges den) (F : ℚ) :
    ∀ (fuel : ℕ) (s : FracState), FracInv num den F s →
      pendCount num s.ni s.ne + pendCount den s.di s.de ≤ fuel →
      FracInv num den F (mainLoop num den fuel s) ∧
        (num.length ≤ (mainLoop num den fuel s).ni ∨
          den.length ≤ (mainLoop num den fuel s).di) := by
  intro fuel
  induction fuel with
  | zero =>
    intro s hInv hc
    rw [show mainLoop num den 0 s = s from rfl]
    refine ⟨hInv, ?_⟩
    by_contra hcon
    push_neg at hcon
    have p1 := pendCount_pos s.ne hcon.1
    have p2 := pendCount_pos s.de hcon.2
    omega
  | succ m ih =>
    intro s hInv hc
    obtain ⟨hF, hcn, hcd⟩ := hInv
    by_cases hguard : s.ni < num.length ∧ s.di < den.length
    · have hne1 : (pyGet num s.ni (0, 0)).1 ≤ s.ne := hcn hguard.1
      have hde1 : (pyGet den s.di (0, 0)).1 ≤ s.de := hcd hguard.2
      have hnl := (hGn _ (getD_mem_of_lt num s.ni (0, 0) hguard.1)).1
      have hdl := (hGd _ (getD_mem_of_lt den s.di (0, 0) hguard.2)).1
      by_cases hdir : 1 < s.pmf
      · -- divide branch
        by_cases hcons : s.de + 1 ≤ (pyGet den s.di (0, 0)).2
        · -- consume the next element of the current denominator range
          have hstep : mainLoop num den (m + 1) s =
              mainLoop num den m
                { s with de := s.de + 1, pmf := s.pmf / ((s.de + 1 : ℤ) : ℚ) } := by
            rw [mainLoop, if_pos hguard, if_pos hdir, if_pos hcons]
          rw [hstep]
          refine ih _ ⟨?_, hcn, ?_⟩ ?_
          · exact inv_div_step (by exact_mod_cast pendingProd_consume hguard.2 hcons) hF
          · intro hlt
            show (pyGet den s.di (0, 0)).1 ≤ s.de + 1
            omega
          · have := pendCount_consume hguard.2 hcons
            simp only at this ⊢
            omega
        · by_cases hnext : s.di + 1 < den.length
          · -- advance to the next denominator range and consume its first element
            have hstep : mainLoop num den (m + 1) s =
                mainLoop num den m
                  { s with
                      di := s.di + 1
                      de := (pyGet den (s.di + 1) (0, 0)).1
                      pmf := s.pmf / ((pyGet den (s.di + 1) (0, 0)).1 : ℚ) } := by
              rw [mainLoop, if_pos hguard, if_pos hdir, if_neg hcons, if_pos hnext]
            rw [hstep]
            refine ih _ ⟨?_, hcn, ?_⟩ ?_
            · refine inv_div_step ?_ hF
              exact_mod_cast pendingProd_advance hGd hguard.2 hnext (by omega)
            · intro hlt
              exact le_refl _
            · have := pendCount_advance hguard.2 hnext (e := s.de) (by omega)
              simp only at this ⊢
              omega
          · -- the denominator side is exhausted
            have hstep : mainLoop num den (m + 1) s =
                mainLoop num den m { s with di := s.di + 1, de := 1 } := by
              rw [mainLoop, if_pos hguard, if_pos hdir, if_neg hcons, if_neg hnext]
            rw [hstep]
            have hlen : den.length ≤ s.di + 1 := by omega
            refine ih _ ⟨?_, hcn, ?_⟩ ?_
            · have h1 : pendingProd den s.di s.de = 1 :=
                pendingProd_exhaust hguard.2 hlen (by omega)
              have h2 : pendingProd den (s.di + 1) 1 = 1 := pendingProd_of_len 1 hlen
              simp only
              rw [h2, ← h1]
              exact hF
            · intro hlt
              simp only at hlt
              omega
            · have h1 : pendCount den s.di s.de = 1 :=
                pendCount_exhaust hguard.2 hlen (by omega)
              have h2 : pendCount den (s.di + 1) 1 = 0 := pendCount_of_len 1 hlen
              simp only
              omega
      · -- multiply branch
        by_cases hcons : s.ne + 1 ≤ (pyGet num s.ni (0, 0)).2
        · have hstep : mainLoop num den (m + 1) s =
              mainLoop num den m
                { s with ne := s.ne + 1, pmf := s.pmf * ((s.ne + 1 : ℤ) : ℚ) } := by
            rw [mainLoop, if_pos hguard, if_neg hdir, if_pos hcons]
          rw [hstep]
          refine ih _ ⟨?_, ?_, hcd⟩ ?_
          · exact inv_mul_step (by exact_mod_cast pendingProd_consume hguard.1 hcons) hF
          · intro hlt
            show (pyGet num s.ni (0, 0)).1 ≤ s.ne + 1
            omega
          · have := pendCount_consume hguard.1 hcons
            simp only at this ⊢
            omega
        · by_cases hnext : s.ni + 1 < num.length
          · have hstep : mainLoop num den (m + 1) s =
                mainLoop num den m
                  { s with
                      ni := s.ni + 1
                      ne := (pyGet num (s.ni + 1) (0, 0)).1
                      pmf := s.pmf * ((pyGet num (s.ni + 1) (0, 0)).1 : ℚ) } := by
              rw [mainLoop, if_pos hguard, if_neg hdir, if_neg hcons, if_pos hnext]
            rw [hstep]
            refine ih _ ⟨?_, ?_, hcd⟩ ?_
            · refine inv_mul_step ?_ hF
              exact_mod_cast pendingProd_advance hGn hguard.1 hnext (by omega)
            · intro hlt
              exact le_refl _
            · have := pendCount_advance hguard.1 hnext (e := s.ne) (by omega)
              simp only at this ⊢
              omega
          · have hstep : mainLoop num den (m + 1) s =
                mainLoop num den m { s with ni := s.ni + 1, ne := 1 } := by
              rw [mainLoop, if_pos hguard, if_neg hdir, if_neg hcons, if_neg hnext]
            rw [hstep]
            have hlen : num.length ≤ s.ni + 1 := by omega
            refine ih _ ⟨?_, ?_, hcd⟩ ?_
            · have h1 : pendingProd num s.ni s.ne = 1 :=
                pendingProd_exhaust hguard.1 hlen (by omega)
              have h2 : pendingProd num (s.ni + 1) 1 = 1 := pendingProd_of_len 1 hlen
              simp only
              rw [h2, ← h1]
              exact hF
            · intro hlt
              simp only at hlt
              omega
            · have h1 : pendCount num s.ni s.ne = 1 :=
                pendCount_exhaust hguard.1 hlen (by omega)
              have h2 : pendCount num (s.ni + 1) 1 = 0 := pendCount_of_len 1 hlen
              simp only
              omega
    · -- the loop guard fails: the state is returned unchanged
      have hstep : mainLoop num den (m + 1) s = s := by
        rw [mainLoop, if_neg hguard]
      rw [hstep]
      refine ⟨⟨hF, hcn, hcd⟩, ?_⟩
      rcases Nat.lt_or_ge s.ni num.length with h1 | h1
      · rcases Nat.lt_or_ge s.di den.length with h2 | h2
        · exact absurd ⟨h1, h2⟩ hguard
        · exact Or.inr h2
      · exact Or.inl h1

theorem drainNumLoop_spec (num den : List (ℤ × ℤ)) (hGn : GoodRanges num)
    (F : ℚ) :
    ∀ (fuel : ℕ) (s : FracState), FracInv num den F s →
      pendCount num s.ni s.ne ≤ fuel →
      FracInv num den F (drainNumLoop num fuel s) ∧
        num.length ≤ (drainNumLoop num fuel s).ni ∧
        (drainNumLoop num fuel s).di = s.di ∧
        (drainNumLoop num fuel s).de = s.de := by
  intro fuel
  induction fuel with
  | zero =>
    intro s hInv hc
    rw [show drainNumLoop num 0 s = s from rfl]
    refine ⟨hInv, ?_, rfl, rfl⟩
    by_contra hcon
    push_neg at hcon
    have p1 := pendCount_pos s.ne hcon
    omega
  | succ m ih =>
    intro s hInv hc
    obtain ⟨hF, hcn, hcd⟩ := hInv
    by_cases hguard : s.ni < num.length
    · by_cases hcons : s.ne + 1 ≤ (pyGet num s.ni (0, 0)).2
      · have hstep : drainNumLoop num (m + 1) s =
            drainNumLoop num m
              { s with ne := s.ne + 1, pmf := s.pmf * ((s.ne + 1 : ℤ) : ℚ) } := by
          rw [drainNumLoop, if_pos hguard, if_pos hcons]
        rw [hstep]
        refine ih _ ⟨?_, ?_, hcd⟩ ?_
        · exact inv_mul_step (by exact_mod_cast pendingProd_consume hguard hcons) hF
        · intro hlt
          have := hcn hguard
          show (pyGet num s.ni (0, 0)).1 ≤ s.ne + 1
          omega
        · have := pendCount_consume hguard hcons
          simp only at this ⊢
          omega
      · by_cases hnext : s.ni + 1 < num.length
        · have hstep : drainNumLoop num (m + 1) s =
              drainNumLoop num m
                { s with
                    ni := s.ni + 1
                    ne := (pyGet num (s.ni + 1) (0, 0)).1
                    pmf := s.pmf * ((pyGet num (s.ni + 1) (0, 0)).1 : ℚ) } := by
            rw [drainNumLoop, if_pos hguard, if_neg hcons, if_pos hnext]
          rw [hstep]
          refine ih _ ⟨?_, ?_, hcd⟩ ?_
          · refine inv_mul_step ?_ hF
            exact_mod_cast pendingProd_advance hGn hguard hnext (by omega)
          · intro hlt
            exact le_refl _
          · have := pendCount_advance hguard hnext (e := s.ne) (by omega)
            simp only at this ⊢
            omega
        · have hstep : drainNumLoop num (m + 1) s =
              drainNumLoop num m { s with ni := s.ni + 1, ne := 1 } := by
            rw [drainNumLoop, if_pos hguard, if_neg hcons, if_neg hnext]
          rw [hstep]
          have hlen : num.length ≤ s.ni + 1 := by omega
          refine ih _ ⟨?_, ?_, hcd⟩ ?_
          · have h1 : pendingProd num s.ni s.ne = 1 :=
              pendingProd_exhaust hguard hlen (by omega)
            have h2 : pendingProd num (s.ni + 1) 1 = 1 := pendingProd_of_len 1 hlen
            simp only
            rw [h2, ← h1]
            exact hF
          · intro hlt
            simp only at hlt
            omega
          · have h1 : pendCount num s.ni s.ne = 1 :=
              pendCount_exhaust hguard hlen (by omega)
            have h2 : pendCount num (s.ni + 1) 1 = 0 := pendCount_of_len 1 hlen
            simp only
            omega
    · have hstep : drainNumLoop num (m + 1) s = s := by
        rw [drainNumLoop, if_neg hguard]
      rw [hstep]
      exact ⟨⟨hF, hcn, hcd⟩, by omega, rfl, rfl⟩

theorem drainDenLoop_spec (num den : List (ℤ × ℤ)) (hGd : GoodRanges den)
    (F : ℚ) :
    ∀ (fuel : ℕ) (s : FracState), FracInv num den F s →
      pendCount den s.di s.de ≤ fuel →
      FracInv num den F (drainDenLoop den fuel s) ∧
        den.length ≤ (drainDenLoop den fuel s).di ∧
        (drainDenLoop den fuel s).ni = s.ni ∧
        (drainDenLoop den fuel s).ne = s.ne := by
  intro fuel
  induction fuel with
  | zero =>
    intro s hInv hc
    rw [show drainDenLoop den 0 s = s from rfl]
    refine ⟨hInv, ?_, rfl, rfl⟩
    by_contra hcon
    push_neg at hcon
    have p1 := pendCount_pos s.de hcon
    omega
  | succ m ih =>
    intro s hInv hc
    obtain ⟨hF, hcn, hcd⟩ := hInv
    by_cases hguard : s.di < den.length
    · by_cases hcons : s.de + 1 ≤ (pyGet den s.di (0, 0)).2
      · have hstep : drainDenLoop den (m + 1) s =
            drainDenLoop den m
              { s with de := s.de + 1, pmf := s.pmf / ((s.de + 1 : ℤ) : ℚ) } := by
          rw [drainDenLoop, if_pos hguard, if_pos hcons]
        rw [hstep]
        refine ih _ ⟨?_, hcn, ?_⟩ ?_
        · exact inv_div_step (by exact_mod_cast pendingProd_consume hguard hcons) hF
        · intro hlt
          have := hcd hguard
          show (pyGet den s.di (0, 0)).1 ≤ s.de + 1
          omega
        · have := pendCount_consume hguard hcons
          simp only at this ⊢
          omega
      · by_cases hnext : s.di + 1 < den.length
        · have hstep : drainDenLoop den (m + 1) s =
              drainDenLoop den m
                { s with
                    di := s.di + 1
                    de := (pyGet den (s.di + 1) (0, 0)).1
                    pmf := s.pmf / ((pyGet den (s.di + 1) (0, 0)).1 : ℚ) } := by
            rw [drainDenLoop, if_pos hguard, if_neg hcons, if_pos hnext]
          rw [hstep]
          refine ih _ ⟨?_, hcn, ?_⟩ ?_
          · refine inv_div_step ?_ hF
            exact_mod_cast pendingProd_advance hGd hguard hnext (by omega)
          · intro hlt
            exact le_refl _
          · have := pendCount_advance hguard hnext (e := s.de) (by omega)
            simp only at this ⊢
            omega
        · have hstep : drainDenLoop den (m + 1) s =
              drainDenLoop den m { s with di := s.di + 1, de := 1 } := by
            rw [drainDenLoop, if_pos hguard, if_neg hcons, if_neg hnext]
          rw [hstep]
          have hlen : den.length ≤ s.di + 1 := by omega
          refine ih _ ⟨?_, hcn, ?_⟩ ?_
          · have h1 : pendingProd den s.di s.de = 1 :=
              pendingProd_exhaust hguard hlen (by omega)
            have h2 : pendingProd den (s.di + 1) 1 = 1 := pendingProd_of_len 1 hlen
            simp only
            rw [h2, ← h1]
            exact hF
          · intro hlt
            simp only at hlt
            omega
          · have h1 : pendCount den s.di s.de = 1 :=
              pendCount_exhaust hguard hlen (by omega)
            have h2 : pendCount den (s.di + 1) 1 = 0 := pendCount_of_len 1 hlen
            simp only
            omega
    · have hstep : drainDenLoop den (m + 1) s = s := by
        rw [drainDenLoop, if_neg hguard]
      rw [hstep]
      exact ⟨⟨hF, hcn, hcd⟩, by omega, rfl, rfl⟩

theorem mainLoop_bounds (num den : List (ℤ × ℤ)) :
    ∀ (fuel : ℕ) (s : FracState), s.ni ≤ num.length → s.di ≤ den.length →
      (mainLoop num den fuel s).ni ≤ num.length ∧
        (mainLoop num den fuel s).di ≤ den.length := by
  intro fuel
  induction fuel with
  | zero =>
    intro s h1 h2
    exact ⟨h1, h2⟩
  | succ m ih =>
    intro s h1 h2
    by_cases hguard : s.ni < num.length ∧ s.di < den.length
    · by_cases hdir : 1 < s.pmf
      · by_cases hcons : s.de + 1 ≤ (pyGet den s.di (0, 0)).2
        · rw [mainLoop, if_pos hguard, if_pos hdir, if_pos hcons]
          exact ih _ h1 h2
        · by_cases hnext : s.di + 1 < den.length
          · rw [mainLoop, if_pos hguard, if_pos hdir, if_neg hcons, if_pos hnext]
            exact ih _ h1 (by simp only; omega)
          · rw [mainLoop, if_pos hguard, if_pos hdir, if_neg hcons, if_neg hnext]
            exact ih _ h1 (by simp only; omega)
      · by_cases hcons : s.ne + 1 ≤ (pyGet num s.ni (0, 0)).2
        · rw [mainLoop, if_pos hguard, if_neg hdir, if_pos hcons]
          exact ih _ h1 h2
        · by_cases hnext : s.ni + 1 < num.length
          · rw [mainLoop, if_pos hguard, if_neg hdir, if_neg hcons, if_pos hnext]
            exact ih _ (by simp only; omega) h2
          · rw [mainLoop, if_pos hguard, if_neg hdir, if_neg hcons, if_neg hnext]
            exact ih _ (by simp only; omega) h2
    · rw [mainLoop, if_neg hguard]
      exact ⟨h1, h2⟩

theorem pendCount_le_fracFuel {l : List (ℤ × ℤ)} {i : ℕ} {e : ℤ}
    (hc : CursorLB l i e) : pendCount l i e ≤ fracFuel l := by
  unfold pendCount fracFuel
  by_cases h : i < l.length
  · rw [if_pos h]
    have hce := hc h
    have hdropsum : ((l.drop i).map (fun r => (r.2 - r.1).toNat + 1)).sum
        = ((pyGet l i (0, 0)).2 - (pyGet l i (0, 0)).1).toNat + 1
          + ((l.drop (i + 1)).map (fun r => (r.2 - r.1).toNat + 1)).sum :=
      tailSum_cons h _
    have hlesum : ((l.drop i).map (fun r => (r.2 - r.1).toNat + 1)).sum
        ≤ (l.map (fun r => (r.2 - r.1).toNat + 1)).sum := by
      have := List.sum_take_add_sum_drop (l.map (fun r => (r.2 - r.1).toNat + 1)) i
      rw [← List.map_drop] at this
      omega
    omega
  · rw [if_neg h]
    omega

/-- Correctness of the interleaved multiply/divide evaluator: on well-formed
non-empty range lists it computes exactly the represented fraction. -/
theorem computeFraction_eq {num den : List (ℤ × ℤ)}
    (hGn : GoodRanges num) (hGd : GoodRanges den)
    (hnn : num ≠ []) (hdn : den ≠ []) :
    computeFraction num den = fractionValue num den := by
  have hln : 0 < num.length := List.length_pos.mpr hnn
  have hld : 0 < den.length := List.length_pos.mpr hdn
  have hmemn : pyGet num 0 (0, 0) ∈ num := getD_mem_of_lt num 0 (0, 0) hln
  have hmemd : pyGet den 0 (0, 0) ∈ den := getD_mem_of_lt den 0 (0, 0) hld
  have hgn0 := hGn _ hmemn
  have hgd0 := hGd _ hmemd
  set ne0 := (pyGet num 0 (0, 0)).1 with hne0
  set de0 := (pyGet den 0 (0, 0)).1 with hde0
  set F := fractionValue num den with hFdef
  set s0 : FracState := ⟨0, ne0, 0, de0, (1 * (ne0 : ℚ)) / (de0 : ℚ)⟩ with hs0
  have hInv0 : FracInv num den F s0 := by
    refine ⟨?_, ?_, ?_⟩
    · show (1 * (ne0 : ℚ)) / (de0 : ℚ) * pendingProd num 0 ne0 / pendingProd den 0 de0 = F
      have hEn : rangesProd num = (ne0 : ℚ) * pendingProd num 0 ne0 := by
        unfold pendingProd
        rw [if_pos hln]
        have : rangesProd num = rangeProd (pyGet num 0 (0, 0)) * prodTail num 1 := by
          have := prodTail_cons (l := num) (j := 0) hln
          unfold prodTail at this ⊢
          rw [List.drop_zero] at this
          exact this
        rw [this]
        unfold rangeProd
        rw [prod_Icc_cons _ _ hgn0.2]
        ring
      have hEd : rangesProd den = (de0 : ℚ) * pendingProd den 0 de0 := by
        unfold pendingProd
        rw [if_pos hld]
        have : rangesProd den = rangeProd (pyGet den 0 (0, 0)) * prodTail den 1 := by
          have := prodTail_cons (l := den) (j := 0) hld
          unfold prodTail at this ⊢
          rw [List.drop_zero] at this
          exact this
        rw [this]
        unfold rangeProd
        rw [prod_Icc_cons _ _ hgd0.2]
        ring
      have hne0pos : (0 : ℚ) < (ne0 : ℚ) := by exact_mod_cast hgn0.1.trans_lt' (by norm_num)
      have hde0pos : (0 : ℚ) < (de0 : ℚ) := by exact_mod_cast hgd0.1.trans_lt' (by norm_num)
      rw [hFdef]
      unfold fractionValue
      rw [hEn, hEd]
      have hPn : pendingProd num 0 ne0 ≠ 0 := by
        have : CursorLB num 0 ne0 := fun _ => le_refl _
        exact ne_of_gt (pendingProd_pos hGn this)
      have hPd : pendingProd den 0 de0 ≠ 0 := by
        have : CursorLB den 0 de0 := fun _ => le_refl _
        exact ne_of_gt (pendingProd_pos hGd this)
      field_simp
    · intro h
      exact le_refl _
    · intro h
      exact le_refl _
  have hcount0 : pendCount num 0 ne0 + pendCount den 0 de0
      ≤ fracFuel num + fracFuel den := by
    have h1 : pendCount num 0 ne0 ≤ fracFuel num :=
      pendCount_le_fracFuel (fun _ => le_refl _)
    have h2 : pendCount den 0 de0 ≤ fracFuel den :=
      pendCount_le_fracFuel (fun _ => le_refl _)
    omega
  obtain ⟨hInv1, hdone1⟩ := mainLoop_spec num den hGn hGd F
    (fracFuel num + fracFuel den) s0 hInv0 hcount0
  obtain ⟨hb1n, hb1d⟩ := mainLoop_bounds num den (fracFuel num + fracFuel den) s0
    (by simp [hs0]) (by simp [hs0])
  set s1 := mainLoop num den (fracFuel num + fracFuel den) s0 with hs1
  -- apply the two conditional drains, tracking the invariant and exhaustion
  have main : ∃ s3 : FracState,
      (let s2 := if s1.ni < num.length ∧ s1.di = den.length
        then drainNumLoop num (fracFuel num + fracFuel den) s1 else s1
      (if s2.ni = num.length ∧ s2.di < den.length
        then drainDenLoop den (fracFuel num + fracFuel den) s2 else s2)) = s3 ∧
      FracInv num den F s3 ∧ num.length ≤ s3.ni ∧ den.length ≤ s3.di := by
    by_cases hA : s1.ni < num.length ∧ s1.di = den.length
    · have hcnt : pendCount num s1.ni s1.ne ≤ fracFuel num + fracFuel den :=
        le_trans (pendCount_le_fracFuel hInv1.2.1) (by omega)
      obtain ⟨hInv2, hex2, hdi2, _⟩ :=
        drainNumLoop_spec num den hGn F (fracFuel num + fracFuel den) s1 hInv1 hcnt
      set s2 := drainNumLoop num (fracFuel num + fracFuel den) s1 with hs2
      have hcond2 : ¬(s2.ni = num.length ∧ s2.di < den.length) := by
        intro hcon
        rw [hdi2, hA.2] at hcon
        omega
      refine ⟨s2, ?_, hInv2, hex2, by rw [hdi2, hA.2]⟩
      simp only [if_pos hA, if_neg hcond2]
    · have hs2eq : (if s1.ni < num.length ∧ s1.di = den.length
          then drainNumLoop num (fracFuel num + fracFuel den) s1 else s1) = s1 :=
        if_neg hA
      by_cases hB : s1.ni = num.length ∧ s1.di < den.length
      · have hcnt : pendCount den s1.di s1.de ≤ fracFuel num + fracFuel den :=
          le_trans (pendCount_le_fracFuel hInv1.2.2) (by omega)
        obtain ⟨hInv3, hex3, hni3, _⟩ :=
          drainDenLoop_spec num den hGd F (fracFuel num + fracFuel den) s1 hInv1 hcnt
        refine ⟨drainDenLoop den (fracFuel num + fracFuel den) s1, ?_, hInv3, ?_, hex3⟩
        · simp only [hs2eq, if_pos hB]
        · rw [hni3, hB.1]
      · refine ⟨s1, by simp only [hs2eq, if_neg hB], hInv1, ?_, ?_⟩
        · rcases hdone1 with h | h
          · exact h
          · by_contra hcon
            push_neg at hcon
            exact hB ⟨by omega, by omega⟩
        · rcases hdone1 with h | h
          · by_contra hcon
            push_neg at hcon
            exact hA ⟨by omega, by omega⟩
          · exact h
  obtain ⟨s3, hs3eq, hInv3, hex3n, hex3d⟩ := main
  have hfinal : s3.pmf = F := by
    have h1 := hInv3.1
    rw [pendingProd_of_len s3.ne hex3n, pendingProd_of_len s3.de hex3d] at h1
    simpa using h1
  show (let s2 := if s1.ni < num.length ∧ s1.di = den.length
      then drainNumLoop num (fracFuel num + fracFuel den) s1 else s1
    (if s2.ni = num.length ∧ s2.di < den.length
      then drainDenLoop den (fracFuel num + fracFuel den) s2 else s2)).pmf = F
  rw [hs3eq]
  exact hfinal

/-! ### The range-product fraction is the hypergeometric PMF -/

theorem prod_Icc_top (a b : ℤ) (h : a ≤ b + 1) :
    (∏ x in Finset.Icc a (b + 1), (x : ℚ))
      = (∏ x in Finset.Icc a b, (x : ℚ)) * ((b + 1 : ℤ) : ℚ) := by
  have he : Finset.Icc a (b + 1) = insert (b + 1) (Finset.Icc a b) := by
    ext x
    simp only [Finset.mem_Icc, Finset.mem_insert]
    omega
  rw [he, Finset.prod_insert (by simp)]
  ring

theorem rangeProd_factorial (m : ℕ) :
    rangeProd (1, (m : ℤ)) = (m.factorial : ℚ) := by
  induction m with
  | zero =>
    unfold rangeProd
    norm_num
  | succ t ih =>
    unfold rangeProd at ih ⊢
    have : ((t + 1 : ℕ) : ℤ) = (t : ℤ) + 1 := by push_cast; ring
    rw [this, prod_Icc_top 1 t (by omega), ih]
    push_cast [Nat.factorial_succ]
    ring

theorem rangeProd_max_one {x : ℤ} (hx : 0 ≤ x) :
    rangeProd (1, max 1 x) = ((x.toNat).factorial : ℚ) := by
  rcases eq_or_lt_of_le hx with h0 | hpos
  · rw [← h0]
    have hm : (max 1 (0 : ℤ)) = 1 := by norm_num
    rw [hm, rangeProd_unit_one]
    norm_num
  · have hmax : max 1 x = ((x.toNat : ℕ) : ℤ) := by omega
    rw [hmax, rangeProd_factorial]

theorem factorial_cast_pos (m : ℕ) : (0 : ℚ) < (m.factorial : ℚ) := by
  exact_mod_cast m.factorial_pos

/-- The range-product fraction built by `exact_hypergeom_pmf` has, before
simplification, exactly the value of the combinatorial PMF. -/
theorem fractionValue_pmfRanges {k M n N : ℕ} (h : ValidQuery k M n N) :
    fractionValue (pmfNumRanges (M : ℤ) (n : ℤ) (N : ℤ))
        (pmfDenRanges (k : ℤ) (M : ℤ) (n : ℤ) (N : ℤ))
      = hypergeomPmfQ M n N k := by
  obtain ⟨hM, hNM, hnM, hkN, hkn, hsub⟩ := h
  have e1 : rangeProd (1, max 1 (n : ℤ)) = (n.factorial : ℚ) := by
    rw [rangeProd_max_one (by positivity)]
    norm_num
  have e2 : rangeProd (1, max 1 (N : ℤ)) = (N.factorial : ℚ) := by
    rw [rangeProd_max_one (by positivity)]
    norm_num
  have e3 : rangeProd (1, max 1 ((M : ℤ) - N)) = ((M - N).factorial : ℚ) := by
    rw [rangeProd_max_one (by omega : (0 : ℤ) ≤ (M : ℤ) - N)]
    congr 2
    omega
  have e4 : rangeProd (1, max 1 ((M : ℤ) - n)) = ((M - n).factorial : ℚ) := by
    rw [rangeProd_max_one (by omega : (0 : ℤ) ≤ (M : ℤ) - n)]
    congr 2
    omega
  have e5 : rangeProd (1, max 1 ((n : ℤ) - k)) = ((n - k).factorial : ℚ) := by
    rw [rangeProd_max_one (by omega : (0 : ℤ) ≤ (n : ℤ) - k)]
    congr 2
    omega
  have e6 : rangeProd (1, max 1 ((N : ℤ) - k)) = ((N - k).factorial : ℚ) := by
    rw [rangeProd_max_one (by omega : (0 : ℤ) ≤ (N : ℤ) - k)]
    congr 2
    omega
  have e7 : rangeProd (1, max 1 (M : ℤ)) = (M.factorial : ℚ) := by
    rw [rangeProd_max_one (by positivity)]
    norm_num
  have e8 : rangeProd (1, max 1 ((M : ℤ) - N - n + k)) = (((M - N) - (n - k)).factorial : ℚ) := by
    rw [rangeProd_max_one (by omega : (0 : ℤ) ≤ (M : ℤ) - N - n + k)]
    congr 2
    omega
  have e9 : rangeProd (1, max 1 (k : ℤ)) = (k.factorial : ℚ) := by
    rw [rangeProd_max_one (by positivity)]
    norm_num
  unfold fractionValue pmfNumRanges pmfDenRanges rangesProd
  simp only [List.map_cons, List.map_nil, List.prod_cons, List.prod_nil]
  rw [e1, e2, e3, e4, e5, e6, e7, e8, e9]
  unfold hypergeomPmfQ
  rw [Nat.cast_choose ℚ hkN, Nat.cast_choose ℚ hsub, Nat.cast_choose ℚ hnM]
  have f1 := factorial_cast_pos n
  have f2 := factorial_cast_pos N
  have f3 := factorial_cast_pos (M - N)
  have f4 := factorial_cast_pos (M - n)
  have f5 := factorial_cast_pos (n - k)
  have f6 := factorial_cast_pos (N - k)
  have f7 := factorial_cast_pos M
  have f8 := factorial_cast_pos ((M - N) - (n - k))
  have f9 := factorial_cast_pos k
  field_simp
  ring

/-- Peeling the top element off a range product, in a form suitable for
evaluating concrete range products by rewriting. -/
theorem rangeProd_step (a b : ℤ) (h : a ≤ b) :
    rangeProd (a, b) = rangeProd (a, b - 1) * (b : ℚ) := by
  have h2 := prod_Icc_top a (b - 1) (by omega)
  have hb : b - 1 + 1 = b := by ring
  rw [hb] at h2
  unfold rangeProd
  push_cast at h2 ⊢
  exact h2

theorem rangeProd_nil (a b : ℤ) (h : b < a) : rangeProd (a, b) = 1 := by
  unfold rangeProd
  rw [Finset.Icc_eq_empty_iff.mpr (by omega)]
  rfl

theorem rangeProd_one : rangeProd (1 : ℤ × ℤ) = 1 := rangeProd_unit_one

theorem pmfNumRanges_allUnit (M n N : ℤ) : AllUnitRanges (pmfNumRanges M n N) := by
  intro r hr
  fin_cases hr <;> exact ⟨rfl, le_max_left 1 _⟩

theorem pmfDenRanges_allUnit (k M n N : ℤ) : AllUnitRanges (pmfDenRanges k M n N) := by
  intro r hr
  fin_cases hr <;> exact ⟨rfl, le_max_left 1 _⟩

theorem good_of_allUnit {l : List (ℤ × ℤ)} (h : AllUnitRanges l) : GoodRanges l :=
  fun r hr => ⟨(h r hr).1.ge, (h r hr).1 ▸ (h r hr).2⟩

/-- For every integer input (valid or not), `exact_hypergeom_pmf` returns
exactly the value of the `max(1,·)`-clamped range-product fraction it
builds: the greedy simplification and the interleaved multiply/divide
evaluation never change that value. -/
theorem exact_pmf_eq_fractionValue (k M n N : ℤ) :
    exact_hypergeom_pmf k M n N
      = fractionValue (pmfNumRanges M n N) (pmfDenRanges k M n N) := by
  have hUn := pmfNumRanges_allUnit (M : ℤ) (n : ℤ) (N : ℤ)
  have hUd := pmfDenRanges_allUnit (k : ℤ) (M : ℤ) (n : ℤ) (N : ℤ)
  have hGn := good_of_allUnit hUn
  have hGd := good_of_allUnit hUd
  have hcn : unitCount (pmfNumRanges (M : ℤ) (n : ℤ) (N : ℤ))
      = (pmfNumRanges (M : ℤ) (n : ℤ) (N : ℤ)).length :=
    unitCount_of_all_unit (fun r hr => (hUn r hr).1)
  have hcd : unitCount (pmfDenRanges (k : ℤ) (M : ℤ) (n : ℤ) (N : ℤ))
      = (pmfDenRanges (k : ℤ) (M : ℤ) (n : ℤ) (N : ℤ)).length :=
    unitCount_of_all_unit (fun r hr => (hUd r hr).1)
  obtain ⟨hfrac, hG1, hG2, hl1, hl2⟩ := simplifyStages_spec
    (min (pmfNumRanges (M : ℤ) (n : ℤ) (N : ℤ)).length
      (pmfDenRanges (k : ℤ) (M : ℤ) (n : ℤ) (N : ℤ)).length)
    (pmfNumRanges (M : ℤ) (n : ℤ) (N : ℤ))
    (pmfDenRanges (k : ℤ) (M : ℤ) (n : ℤ) (N : ℤ))
    hGn hGd (by omega) (by omega)
  show computeFraction
      (simplifyFraction (pmfNumRanges (M : ℤ) (n : ℤ) (N : ℤ))
        (pmfDenRanges (k : ℤ) (M : ℤ) (n : ℤ) (N : ℤ))).1
      (simplifyFraction (pmfNumRanges (M : ℤ) (n : ℤ) (N : ℤ))
        (pmfDenRanges (k : ℤ) (M : ℤ) (n : ℤ) (N : ℤ))).2
    = fractionValue (pmfNumRanges M n N) (pmfDenRanges k M n N)
  unfold simplifyFraction
  rw [computeFraction_eq hG1 hG2 ?hne1 ?hne2]
  case hne1 =>
    rw [← List.length_pos, hl1]
    simp [pmfNumRanges]
  case hne2 =>
    rw [← List.length_pos, hl2]
    simp [pmfDenRanges]
  rw [hfrac]

/-- For every valid query, `exact_hypergeom_pmf` (range-product
construction, greedy simplification, then interleaved multiply/divide
evaluation in exact arithmetic) returns the combinatorial PMF
`C(N,k)·C(M−N,n−k)/C(M,n)`. -/
theorem exact_pmf_matches_reference {k M n N : ℕ} (h : ValidQuery k M n N) :
    exact_hypergeom_pmf (k : ℤ) (M : ℤ) (n : ℤ) (N : ℤ) = hypergeomPmfQ M n N k := by
  rw [exact_pmf_eq_fractionValue]
  exact fractionValue_pmfRanges h

/-- Claim C2 (amended reference value) — for every valid query,
`exact_hypergeom_pmf` (range-product construction, greedy simplification,
then interleaved multiply/divide evaluation in exact arithmetic) returns the
combinatorial PMF `C(N,k)·C(M−N,n−k)/C(M,n)`. -/
theorem exact_hypergeom_pmf_eq {k M n N : ℕ} (h : ValidQuery k M n N) :
    exact_hypergeom_pmf (k : ℤ) (M : ℤ) (n : ℤ) (N : ℤ) = hypergeomPmfQ M n N k :=
  exact_pmf_matches_reference h

/-- Counterexample to claim C2 as stated: at `M=50, N=20, n=10, k=3` the
exact PMF equals `C(20,3)·C(30,7)/C(50,10) = 232081200/1027227817 ≈ 0.2259`,
which differs from the claimed reference value `≈ 0.2157` by more than
`0.005`. -/
theorem exact_hypergeom_pmf_reference_value_wrong :
    exact_hypergeom_pmf 3 50 10 20 = 232081200 / 1027227817 ∧
      (5 : ℚ) / 1000 < |(232081200 : ℚ) / 1027227817 - 2157 / 10000| := by
  constructor
  · have hsimp : simplifyFraction (pmfNumRanges 50 10 20) (pmfDenRanges 3 50 10 20)
        = ([(8, 10), (18, 20), (24, 30), (1, 1)],
           [(1, 1), (1, 1), (41, 50), (1, 1), (1, 3)]) := by decide
    show computeFraction
        (simplifyFraction (pmfNumRanges 50 10 20) (pmfDenRanges 3 50 10 20)).1
        (simplifyFraction (pmfNumRanges 50 10 20) (pmfDenRanges 3 50 10 20)).2
      = 232081200 / 1027227817
    rw [hsimp]
    rw [computeFraction_eq ?g1 ?g2 (by simp) (by simp)]
    case g1 =>
      intro r hr
      fin_cases hr <;> exact ⟨by norm_num, by norm_num⟩
    case g2 =>
      intro r hr
      fin_cases hr <;> exact ⟨by norm_num, by norm_num⟩
    norm_num [fractionValue, rangesProd, rangeProd_step, rangeProd_nil, rangeProd_one]
  · rw [abs_of_pos (by norm_num)]
    norm_num

/-- Witness for the amended claim C2 at the spec's boundary example
`M=50, N=20, n=10, k=3`. -/
theorem exact_hypergeom_pmf_eq_witness :
    ValidQuery 3 50 10 20 ∧
      exact_hypergeom_pmf 3 50 10 20 = hypergeomPmfQ 50 10 20 3 :=
  ⟨by norm_num [ValidQuery], exact_hypergeom_pmf_eq (by norm_num [ValidQuery])⟩

/-! ### The incremental tail summation `_sum_hypergeom_pmfs` -/

/-! ### Facts about the reference PMF -/

theorem hypergeomPmfQ_nonneg (M n N i : ℕ) : 0 ≤ hypergeomPmfQ M n N i := by
  unfold hypergeomPmfQ
  positivity

theorem choose_cast_pos {a b : ℕ} (h : b ≤ a) : (0 : ℚ) < (a.choose b : ℚ) := by
  exact_mod_cast Nat.choose_pos h

/-- Vandermonde: the PMF sums to `1` over the whole index range. -/
theorem hypergeomPmfQ_total {k M n N : ℕ} (hv : ValidQuery k M n N) :
    ∑ i in Finset.range (n + 1), hypergeomPmfQ M n N i = 1 := by
  obtain ⟨hM, hNM, hnM, hkN, hkn, hsub⟩ := hv
  have hvan : (N + (M - N)).choose n
      = ∑ i in Finset.range (n + 1), N.choose i * (M - N).choose (n - i) := by
    rw [Nat.add_choose_eq]
    rw [Finset.Nat.sum_antidiagonal_eq_sum_range_succ_mk]
  have hMN : N + (M - N) = M := by omega
  rw [hMN] at hvan
  have hpos : (0 : ℚ) < (M.choose n : ℚ) := choose_cast_pos hnM
  unfold hypergeomPmfQ
  rw [← Finset.sum_div]
  rw [div_eq_one_iff_eq (ne_of_gt hpos)]
  rw [hvan]
  push_cast
  rfl

/-- Below the support (`i < n + N − M`) the PMF vanishes. -/
theorem hypergeomPmfQ_vanish_low {M n N i : ℕ} (h : i + M < n + N) (hNM : N ≤ M) :
    hypergeomPmfQ M n N i = 0 := by
  unfold hypergeomPmfQ
  have hz : (M - N).choose (n - i) = 0 := Nat.choose_eq_zero_of_lt (by omega)
  rw [hz]
  norm_num

/-- Above `N` the PMF vanishes. -/
theorem hypergeomPmfQ_vanish_high {M n N i : ℕ} (h : N < i) :
    hypergeomPmfQ M n N i = 0 := by
  unfold hypergeomPmfQ
  have hz : N.choose i = 0 := Nat.choose_eq_zero_of_lt h
  rw [hz]
  norm_num

/-- The cross-multiplied PMF recurrence
`PMF(j+1)·(M−N−n+j+1)·(j+1) = PMF(j)·(n−j)·(N−j)`. -/
theorem hypergeomPmfQ_cross {M n N : ℕ} (j : ℕ)
    (h1 : j < n) (h2 : j < N) (h3 : n + N ≤ M + j + 1) (hNM : N ≤ M) (hnM : n ≤ M) :
    hypergeomPmfQ M n N (j + 1) * ((((M : ℤ) - N - n + j + 1) * ((j : ℤ) + 1) : ℤ) : ℚ)
      = hypergeomPmfQ M n N j * ((((n : ℤ) - j) * ((N : ℤ) - j) : ℤ) : ℚ) := by
  have hNj : ((N - j : ℕ) : ℚ) = (N : ℚ) - j := by
    have := congrArg (Nat.cast (R := ℚ)) (by omega : N - j + j = N)
    push_cast at this
    linarith
  have e1 : (N.choose (j + 1) : ℚ) * ((j : ℚ) + 1)
      = (N.choose j : ℚ) * ((N : ℚ) - j) := by
    have key := congrArg (Nat.cast (R := ℚ)) (Nat.choose_succ_right_eq N j)
    push_cast at key
    rw [hNj] at key
    linarith
  have hnjC : ((n - (j + 1) : ℕ) : ℚ) = (n : ℚ) - j - 1 := by
    have := congrArg (Nat.cast (R := ℚ)) (by omega : n - (j + 1) + (j + 1) = n)
    push_cast at this
    linarith
  have hc2 : (((M - N) - (n - (j + 1)) : ℕ) : ℚ) = (M : ℚ) - N - n + j + 1 := by
    have := congrArg (Nat.cast (R := ℚ))
      (by omega : (M - N) - (n - (j + 1)) + N + n = M + j + 1)
    push_cast at this
    linarith
  have e2 : ((M - N).choose (n - j) : ℚ) * ((n : ℚ) - j)
      = ((M - N).choose (n - (j + 1)) : ℚ) * ((M : ℚ) - N - n + j + 1) := by
    have key := congrArg (Nat.cast (R := ℚ))
      (Nat.choose_succ_right_eq (M - N) (n - (j + 1)))
    push_cast at key
    rw [hnjC, hc2, (by omega : n - (j + 1) + 1 = n - j)] at key
    linarith
  unfold hypergeomPmfQ
  have hpos : (0 : ℚ) < (M.choose n : ℚ) := choose_cast_pos hnM
  rw [div_mul_eq_mul_div, div_mul_eq_mul_div, div_eq_div_iff (ne_of_gt hpos) (ne_of_gt hpos)]
  push_cast
  linear_combination
    ((M.choose n : ℚ) * ((M - N).choose (n - (j + 1)) : ℚ) * ((M : ℚ) - N - n + j + 1)) * e1
      - ((M.choose n : ℚ) * (N.choose j : ℚ) * ((N : ℚ) - j)) * e2

theorem intRange_empty {a b : ℤ} (h : b ≤ a) : intRange a b = [] := by
  unfold intRange
  rw [Int.toNat_of_nonpos (by omega)]
  rfl

theorem intRange_succ_top {a b : ℤ} (h : a ≤ b) :
    intRange a (b + 1) = intRange a b ++ [b] := by
  unfold intRange
  have h1 : (b + 1 - a).toNat = (b - a).toNat + 1 := by omega
  rw [h1, List.range_succ, List.map_append]
  congr 1
  simp only [List.map_cons, List.map_nil]
  congr 2
  omega

theorem intRangeDown_empty {a b : ℤ} (h : a ≤ b) : intRangeDown a b = [] := by
  unfold intRangeDown
  rw [Int.toNat_of_nonpos (by omega)]
  rfl

theorem intRangeDown_cons {a b : ℤ} (h : b < a) :
    intRangeDown a b = a :: intRangeDown (a - 1) b := by
  unfold intRangeDown
  have h1 : (a - b).toNat = (a - 1 - b).toNat + 1 := by omega
  rw [h1, List.range_succ_eq_map]
  simp only [List.map_cons, List.map_map]
  congr 1
  · omega
  · apply List.map_congr_left
    intro j _
    simp only [Function.comp_apply]
    push_cast
    ring

/-- Splitting the full-support sum at the boundary index `k`. -/
theorem sum_range_split_at {k n : ℕ} (hk : k ≤ n) (p : ℕ → ℚ) :
    ∑ i in Finset.range (n + 1), p i
      = (∑ i in Finset.range k, p i) + p k + ∑ i in Finset.Icc (k + 1) n, p i := by
  have h1 : ∑ i in Finset.Ico 0 (k + 1), p i + ∑ i in Finset.Ico (k + 1) (n + 1), p i
      = ∑ i in Finset.Ico 0 (n + 1), p i :=
    Finset.sum_Ico_consecutive _ (by omega) (by omega)
  rw [Finset.range_eq_Ico, ← h1, ← Finset.range_eq_Ico, Finset.sum_range_succ,
    Nat.Ico_succ_right]

/-- Terms below the lower support edge drop out of the running sum. -/
theorem sum_range_eq_Ico_iFirst {M n N m : ℕ} (hNM : N ≤ M) (hm : n + N - M ≤ m) :
    ∑ i in Finset.range m, hypergeomPmfQ M n N i
      = ∑ i in Finset.Ico (n + N - M) m, hypergeomPmfQ M n N i := by
  have h1 : ∑ i in Finset.Ico 0 (n + N - M), hypergeomPmfQ M n N i
        + ∑ i in Finset.Ico (n + N - M) m, hypergeomPmfQ M n N i
      = ∑ i in Finset.Ico 0 m, hypergeomPmfQ M n N i :=
    Finset.sum_Ico_consecutive _ (by omega) hm
  have h2 : ∑ i in Finset.Ico 0 (n + N - M), hypergeomPmfQ M n N i = 0 := by
    apply Finset.sum_eq_zero
    intro i hi
    rw [Finset.mem_Ico] at hi
    exact hypergeomPmfQ_vanish_low (by omega) hNM
  rw [Finset.range_eq_Ico, ← h1, h2, zero_add]

/-- Above the boundary index the PMF vanishes under any of the degenerate
conditions checked by `_sum_hypergeom_pmfs`. -/
theorem hypergeomPmfQ_vanish_deg {k M n N : ℕ} (hv : ValidQuery k M n N)
    (hdeg : M = n ∨ M = N ∨ N = k ∨ n = 0 ∨ N = 0) {i : ℕ} (hki : k < i)
    (hin : i ≤ n) : hypergeomPmfQ M n N i = 0 := by
  obtain ⟨hM, hNM, hnM, hkN, hkn, hsub⟩ := hv
  rcases hdeg with h | h | h | h | h
  · exact hypergeomPmfQ_vanish_high (by omega)
  · exact absurd hin (by omega)
  · exact hypergeomPmfQ_vanish_high (by omega)
  · exact absurd hin (by omega)
  · exact hypergeomPmfQ_vanish_high (by omega)

/-- Above `min n N` the PMF vanishes (within the summation range `i ≤ n`,
only `N < i` is possible). -/
theorem hypergeomPmfQ_vanish_above_min {M n N i : ℕ} (h : min n N < i) (hin : i ≤ n) :
    hypergeomPmfQ M n N i = 0 :=
  hypergeomPmfQ_vanish_high (by omega)

/-- The CDF summation loop advances the running PMF by the multiplicative
recurrence and accumulates each new PMF value, as long as the boundary
index `k` (where half-weighting could kick in) is not reached. -/
theorem cdf_fold_aux {k M n N : ℕ} (hv : ValidQuery k M n N) (half : Bool) :
    ∀ t s : ℕ, n + N ≤ M + s → s + t ≤ k → (half = true → s + t < k) → ∀ acc : ℚ,
      (intRange ((s : ℤ) + 1) ((s : ℤ) + (t : ℤ) + 1)).foldl
          (cdfLoopStep (k : ℤ) (M : ℤ) (n : ℤ) (N : ℤ) half)
          (hypergeomPmfQ M n N s, acc)
        = (hypergeomPmfQ M n N (s + t),
           acc + ∑ i in Finset.Icc (s + 1) (s + t), hypergeomPmfQ M n N i) := by
  intro t
  induction t with
  | zero =>
    intro s _ _ _ acc
    rw [intRange_empty (by omega)]
    rw [Finset.Icc_eq_empty (by omega : ¬ s + 1 ≤ s + 0)]
    simp
  | succ t ih =>
    intro s hlow hle hlt acc
    obtain ⟨hM, hNM, hnM, hkN, hkn, hsub⟩ := hv
    have hsplit : intRange ((s : ℤ) + 1) ((s : ℤ) + ((t + 1 : ℕ) : ℤ) + 1)
        = intRange ((s : ℤ) + 1) ((s : ℤ) + (t : ℤ) + 1) ++ [(s : ℤ) + (t : ℤ) + 1] := by
      have h' : ((s : ℤ) + ((t + 1 : ℕ) : ℤ) + 1) = ((s : ℤ) + (t : ℤ) + 1) + 1 := by
        push_cast
        ring
      rw [h', intRange_succ_top (by omega)]
    rw [hsplit, List.foldl_append]
    rw [ih s hlow (by omega) (fun hh => by have := hlt hh; omega) acc]
    have hcross := hypergeomPmfQ_cross (M := M) (n := n) (N := N) (s + t)
      (by omega) (by omega) (by omega) hNM hnM
    have hD : ((((M : ℤ) - N - n + (s + t) + 1) * (((s + t : ℕ) : ℤ) + 1) : ℤ) : ℚ) ≠ 0 := by
      have : (0 : ℤ) < ((M : ℤ) - N - n + (s + t) + 1) * (((s + t : ℕ) : ℤ) + 1) := by
        apply mul_pos <;> push_cast <;> omega
      exact_mod_cast ne_of_gt (by exact_mod_cast this)
    have hpmf : hypergeomPmfQ M n N (s + t)
          * ((((n : ℤ) - ((s : ℤ) + (t : ℤ) + 1) + 1)
              * ((N : ℤ) - ((s : ℤ) + (t : ℤ) + 1) + 1) : ℤ) : ℚ)
          / ((((M : ℤ) - (N : ℤ) - (n : ℤ) + ((s : ℤ) + (t : ℤ) + 1))
              * ((s : ℤ) + (t : ℤ) + 1) : ℤ) : ℚ)
        = hypergeomPmfQ M n N (s + (t + 1)) := by
      have hA : ((((n : ℤ) - ((s : ℤ) + (t : ℤ) + 1) + 1)
            * ((N : ℤ) - ((s : ℤ) + (t : ℤ) + 1) + 1) : ℤ) : ℚ)
          = ((((n : ℤ) - (s + t)) * ((N : ℤ) - (s + t)) : ℤ) : ℚ) := by
        push_cast
        ring
      have hDq : ((((M : ℤ) - (N : ℤ) - (n : ℤ) + ((s : ℤ) + (t : ℤ) + 1))
            * ((s : ℤ) + (t : ℤ) + 1) : ℤ) : ℚ)
          = ((((M : ℤ) - N - n + (s + t) + 1) * (((s + t : ℕ) : ℤ) + 1) : ℤ) : ℚ) := by
        push_cast
        ring
      rw [hA, hDq, div_eq_iff hD]
      have hidx : s + (t + 1) = (s + t) + 1 := by omega
      rw [hidx]
      have hA' : ((((n : ℤ) - (s + t)) * ((N : ℤ) - (s + t)) : ℤ) : ℚ)
          = ((((n : ℤ) - (s + t : ℕ)) * ((N : ℤ) - (s + t : ℕ)) : ℤ) : ℚ) := by
        push_cast
        ring
      have hD' : ((((M : ℤ) - N - n + (s + t) + 1) * (((s + t : ℕ) : ℤ) + 1) : ℤ) : ℚ)
          = ((((M : ℤ) - N - n + (s + t : ℕ) + 1) * ((s + t : ℕ) + 1) : ℤ) : ℚ) := by
        push_cast
        ring
      rw [hA', hD', ← hcross]
    have hnotk : ¬((half = true) ∧ ((s : ℤ) + (t : ℤ) + 1) = (k : ℤ)) := by
      rintro ⟨hh, hik⟩
      have := hlt hh
      omega
    show cdfLoopStep (k : ℤ) (M : ℤ) (n : ℤ) (N : ℤ) half
        (hypergeomPmfQ M n N (s + t),
          acc + ∑ i in Finset.Icc (s + 1) (s + t), hypergeomPmfQ M n N i)
        ((s : ℤ) + (t : ℤ) + 1) = _
    rw [cdfLoopStep]
    simp only [if_neg hnotk]
    have hacc : (acc + ∑ i in Finset.Icc (s + 1) (s + t), hypergeomPmfQ M n N i)
          + hypergeomPmfQ M n N (s + (t + 1))
        = acc + ∑ i in Finset.Icc (s + 1) (s + (t + 1)), hypergeomPmfQ M n N i := by
      have hidx : s + (t + 1) = (s + t) + 1 := by omega
      rw [hidx, Finset.sum_Icc_succ_top (by omega : s + 1 ≤ (s + t) + 1)]
      ring
    rw [hpmf, hacc]

theorem clamp01_of_mem {x : ℚ} (h0 : 0 ≤ x) (h1 : x ≤ 1) : clamp01 x = x := by
  unfold clamp01
  rw [min_eq_right h1, max_eq_right h0]

/-- The three-way partition of the total PMF mass at the boundary index. -/
theorem pmf_partition {k M n N : ℕ} (hv : ValidQuery k M n N) :
    (∑ i in Finset.range k, hypergeomPmfQ M n N i) + hypergeomPmfQ M n N k
      + ∑ i in Finset.Icc (k + 1) n, hypergeomPmfQ M n N i = 1 := by
  rw [← sum_range_split_at hv.2.2.2.2.1]
  exact hypergeomPmfQ_total hv

/-- `_sum_hypergeom_pmfs` in CDF mode returns
`Σ_{i<k} PMF(i) + PMF(k)` (or `… + PMF(k)/2` in half-boundary mode),
for every valid query and in every branch, degenerate or not. -/
theorem sum_cdf_eq {k M n N : ℕ} (hv : ValidQuery k M n N) (half : Bool) :
    sum_hypergeom_pmfs (k : ℤ) (M : ℤ) (n : ℤ) (N : ℤ) half true
      = (∑ i in Finset.range k, hypergeomPmfQ M n N i)
        + (if half then hypergeomPmfQ M n N k / 2 else hypergeomPmfQ M n N k) := by
  obtain ⟨hM, hNM, hnM, hkN, hkn, hsub⟩ := hv
  have hv' : ValidQuery k M n N := ⟨hM, hNM, hnM, hkN, hkn, hsub⟩
  have hpart := pmf_partition hv'
  have hS0 : 0 ≤ ∑ i in Finset.range k, hypergeomPmfQ M n N i :=
    Finset.sum_nonneg fun i _ => hypergeomPmfQ_nonneg M n N i
  have hT0 : 0 ≤ ∑ i in Finset.Icc (k + 1) n, hypergeomPmfQ M n N i :=
    Finset.sum_nonneg fun i _ => hypergeomPmfQ_nonneg M n N i
  have hk0 : 0 ≤ hypergeomPmfQ M n N k := hypergeomPmfQ_nonneg M n N k
  have hRHS0 : 0 ≤ (∑ i in Finset.range k, hypergeomPmfQ M n N i)
      + (if half then hypergeomPmfQ M n N k / 2 else hypergeomPmfQ M n N k) := by
    cases half <;> simp only [if_true, if_false, Bool.false_eq_true] <;> linarith
  have hRHS1 : (∑ i in Finset.range k, hypergeomPmfQ M n N i)
      + (if half then hypergeomPmfQ M n N k / 2 else hypergeomPmfQ M n N k) ≤ 1 := by
    cases half <;> simp only [if_true, if_false, Bool.false_eq_true] <;> linarith
  by_cases hdeg : (M : ℤ) = (n : ℤ) ∨ (M : ℤ) = (N : ℤ) ∨ (N : ℤ) = (k : ℤ)
      ∨ ((M : ℤ) - (N : ℤ) = (n : ℤ) - (k : ℤ) ∧ half = true)
      ∨ (n : ℤ) = 0 ∨ (N : ℤ) = 0
  · by_cases hsym : (M : ℤ) - (N : ℤ) = (n : ℤ) - (k : ℤ) ∧ half = true
    · -- symmetric degenerate case: the support is exactly `{k}` from below
      obtain ⟨hsymz, hhalf⟩ := hsym
      subst hhalf
      have hMk : M + k = n + N := by omega
      have hSz : ∑ i in Finset.range k, hypergeomPmfQ M n N i = 0 := by
        apply Finset.sum_eq_zero
        intro i hi
        rw [Finset.mem_range] at hi
        exact hypergeomPmfQ_vanish_low (by omega) hNM
      have hval : sum_hypergeom_pmfs (k : ℤ) (M : ℤ) (n : ℤ) (N : ℤ) true true
          = clamp01 (exact_hypergeom_pmf (k : ℤ) (M : ℤ) (n : ℤ) (N : ℤ) / 2) := by
        unfold sum_hypergeom_pmfs
        rw [if_pos hdeg, if_pos ⟨hsymz, rfl⟩]
        simp
      rw [hval, exact_pmf_matches_reference hv']
      rw [clamp01_of_mem (by linarith) (by linarith)]
      simp [hSz]
    · -- non-symmetric degenerate case: the support ends at `k`
      have hdeg' : M = n ∨ M = N ∨ N = k ∨ n = 0 ∨ N = 0 := by
        rcases hdeg with h | h | h | h | h | h
        · exact Or.inl (by exact_mod_cast h)
        · exact Or.inr (Or.inl (by exact_mod_cast h))
        · exact Or.inr (Or.inr (Or.inl (by exact_mod_cast h)))
        · exact absurd h hsym
        · exact Or.inr (Or.inr (Or.inr (Or.inl (by exact_mod_cast h))))
        · exact Or.inr (Or.inr (Or.inr (Or.inr (by exact_mod_cast h))))
      have hTz : ∑ i in Finset.Icc (k + 1) n, hypergeomPmfQ M n N i = 0 := by
        apply Finset.sum_eq_zero
        intro i hi
        rw [Finset.mem_Icc] at hi
        exact hypergeomPmfQ_vanish_deg hv' hdeg' (by omega) hi.2
      have hone : (∑ i in Finset.range k, hypergeomPmfQ M n N i)
          + hypergeomPmfQ M n N k = 1 := by linarith
      have hval : sum_hypergeom_pmfs (k : ℤ) (M : ℤ) (n : ℤ) (N : ℤ) half true
          = clamp01 ((1 : ℚ) - (if half = true
              then exact_hypergeom_pmf (k : ℤ) (M : ℤ) (n : ℤ) (N : ℤ) / 2 else 0)) := by
        simp only [sum_hypergeom_pmfs]
        rw [if_pos hdeg, if_neg hsym]
        rfl
      rw [hval, exact_pmf_matches_reference hv']
      cases half with
      | false =>
        simp only [Bool.false_eq_true, if_false, sub_zero]
        rw [clamp01_of_mem (by norm_num) (by norm_num)]
        linarith
      | true =>
        simp only [if_true]
        rw [clamp01_of_mem (by linarith) (by linarith)]
        linarith
  · -- non-degenerate branch: the incremental summation loop runs
    set f : ℕ := n + N - M with hf
    have hfk : f ≤ k := by omega
    have hvf : ValidQuery f M n N := ⟨hM, hNM, hnM, by omega, by omega, by omega⟩
    have hiF : max 0 ((n : ℤ) + (N : ℤ) - (M : ℤ)) = ((f : ℕ) : ℤ) := by omega
    have hSz : ∑ i in Finset.range k, hypergeomPmfQ M n N i
        = ∑ i in Finset.Ico f k, hypergeomPmfQ M n N i :=
      sum_range_eq_Ico_iFirst hNM hfk
    have hval : sum_hypergeom_pmfs (k : ℤ) (M : ℤ) (n : ℤ) (N : ℤ) half true
        = clamp01 (((intRange (((f : ℕ) : ℤ) + 1) ((k : ℤ) + 1)).foldl
            (cdfLoopStep (k : ℤ) (M : ℤ) (n : ℤ) (N : ℤ) half)
            ((if half = true ∧ (k : ℤ) + 1 ≤ ((f : ℕ) : ℤ) + 1
                then exact_hypergeom_pmf ((f : ℕ) : ℤ) (M : ℤ) (n : ℤ) (N : ℤ) / 2
                else exact_hypergeom_pmf ((f : ℕ) : ℤ) (M : ℤ) (n : ℤ) (N : ℤ)),
             (if ((f : ℕ) : ℤ) ≤ (k : ℤ)
                then (if half = true ∧ (k : ℤ) + 1 ≤ ((f : ℕ) : ℤ) + 1
                  then exact_hypergeom_pmf ((f : ℕ) : ℤ) (M : ℤ) (n : ℤ) (N : ℤ) / 2
                  else exact_hypergeom_pmf ((f : ℕ) : ℤ) (M : ℤ) (n : ℤ) (N : ℤ))
                else 0))).2) := by
      simp only [sum_hypergeom_pmfs]
      rw [if_neg hdeg, hiF]
      rfl
    rw [hval, exact_pmf_matches_reference hvf]
    by_cases hfk2 : f = k
    · -- the loop is empty and the boundary PMF is the whole sum
      subst hfk2
      rw [intRange_empty (by omega)]
      have hSz0 : ∑ i in Finset.range f, hypergeomPmfQ M n N i = 0 := by
        apply Finset.sum_eq_zero
        intro i hi
        rw [Finset.mem_range] at hi
        exact hypergeomPmfQ_vanish_low (by omega) hNM
      cases half with
      | false =>
        simp only [Bool.false_eq_true, false_and, if_false, if_pos (le_refl ((f : ℕ) : ℤ))]
        rw [List.foldl_nil]
        rw [clamp01_of_mem (by linarith) (by linarith)]
        rw [hSz0, zero_add]
      | true =>
        rw [if_pos ⟨rfl, by omega⟩, if_pos (le_refl ((f : ℕ) : ℤ))]
        rw [List.foldl_nil]
        rw [clamp01_of_mem (by linarith) (by linarith)]
        rw [hSz0, zero_add, if_pos rfl]
    · -- the loop advances from `f` up to `k`
      have hflt : f < k := by omega
      rw [if_neg (by omega :
        ¬(half = true ∧ (k : ℤ) + 1 ≤ ((f : ℕ) : ℤ) + 1)), if_pos (by omega : ((f : ℕ) : ℤ) ≤ (k : ℤ))]
      cases half with
      | false =>
        have hlist : intRange (((f : ℕ) : ℤ) + 1) ((k : ℤ) + 1)
            = intRange (((f : ℕ) : ℤ) + 1) (((f : ℕ) : ℤ) + ((k - f : ℕ) : ℤ) + 1) := by
          congr 1
          push_cast
          omega
        rw [hlist, cdf_fold_aux hv' false (k - f) f (by omega) (by omega) (by simp)]
        have hsum : hypergeomPmfQ M n N f
            + ∑ i in Finset.Icc (f + 1) (f + (k - f)), hypergeomPmfQ M n N i
            = (∑ i in Finset.range k, hypergeomPmfQ M n N i) + hypergeomPmfQ M n N k := by
          have h1 : f + (k - f) = k := by omega
          rw [h1, hSz, Finset.sum_eq_sum_Ico_succ_bot hflt]
          rw [← Nat.Ico_succ_right (f + 1) k, Finset.sum_Ico_succ_top (by omega)]
          ring
        simp only [Bool.false_eq_true, if_false]
        rw [clamp01_of_mem (by rw [hsum]; linarith) (by rw [hsum]; linarith)]
        exact hsum
      | true =>
        have hlist : intRange (((f : ℕ) : ℤ) + 1) ((k : ℤ) + 1)
            = intRange (((f : ℕ) : ℤ) + 1) ((k : ℤ)) ++ [(k : ℤ)] := by
          have : (k : ℤ) + 1 = ((k : ℤ)) + 1 := rfl
          rw [intRange_succ_top (by omega)]
        have hlist2 : intRange (((f : ℕ) : ℤ) + 1) ((k : ℤ))
            = intRange (((f : ℕ) : ℤ) + 1) (((f : ℕ) : ℤ) + ((k - 1 - f : ℕ) : ℤ) + 1) := by
          congr 1
          push_cast
          omega
        rw [hlist, List.foldl_append, hlist2,
          cdf_fold_aux hv' true (k - 1 - f) f (by omega) (by omega) (fun _ => by omega)]
        have hidx : f + (k - 1 - f) = k - 1 := by omega
        rw [hidx]
        -- the final loop step at `i = k` halves the boundary PMF
        have hcross := hypergeomPmfQ_cross (M := M) (n := n) (N := N) (k - 1)
          (by omega) (by omega) (by omega) hNM hnM
        have hk1 : (k - 1 : ℕ) + 1 = k := by omega
        rw [hk1] at hcross
        have hD : ((((M : ℤ) - N - n + (k - 1 : ℕ) + 1) * (((k - 1 : ℕ) : ℤ) + 1) : ℤ) : ℚ) ≠ 0 := by
          have : (0 : ℤ) < ((M : ℤ) - N - n + (k - 1 : ℕ) + 1) * (((k - 1 : ℕ) : ℤ) + 1) := by
            apply mul_pos <;> push_cast <;> omega
          exact_mod_cast ne_of_gt (by exact_mod_cast this)
        have hpmf : hypergeomPmfQ M n N (k - 1)
              * ((((n : ℤ) - (k : ℤ) + 1) * ((N : ℤ) - (k : ℤ) + 1) : ℤ) : ℚ)
              / ((((M : ℤ) - (N : ℤ) - (n : ℤ) + (k : ℤ)) * (k : ℤ) : ℤ) : ℚ)
            = hypergeomPmfQ M n N k := by
          have hA : ((((n : ℤ) - (k : ℤ) + 1) * ((N : ℤ) - (k : ℤ) + 1) : ℤ) : ℚ)
              = ((((n : ℤ) - (k - 1 : ℕ)) * ((N : ℤ) - (k - 1 : ℕ)) : ℤ) : ℚ) := by
            push_cast
            have : ((k - 1 : ℕ) : ℚ) = (k : ℚ) - 1 := by
              have := congrArg (Nat.cast (R := ℚ)) (by omega : (k - 1) + 1 = k)
              push_cast at this
              linarith
            rw [this]
            ring
          have hDq : ((((M : ℤ) - (N : ℤ) - (n : ℤ) + (k : ℤ)) * (k : ℤ) : ℤ) : ℚ)
              = ((((M : ℤ) - N - n + (k - 1 : ℕ) + 1) * (((k - 1 : ℕ) : ℤ) + 1) : ℤ) : ℚ) := by
            push_cast
            have : ((k - 1 : ℕ) : ℚ) = (k : ℚ) - 1 := by
              have := congrArg (Nat.cast (R := ℚ)) (by omega : (k - 1) + 1 = k)
              push_cast at this
              linarith
            rw [this]
            ring
          rw [hA, hDq, div_eq_iff hD]
          rw [← hcross]
        show clamp01 (cdfLoopStep (k : ℤ) (M : ℤ) (n : ℤ) (N : ℤ) true
            (hypergeomPmfQ M n N (k - 1),
              hypergeomPmfQ M n N f
                + ∑ i in Finset.Icc (f + 1) (k - 1), hypergeomPmfQ M n N i)
            ((k : ℤ))).2 = _
        have hstep : (cdfLoopStep (k : ℤ) (M : ℤ) (n : ℤ) (N : ℤ) true
            (hypergeomPmfQ M n N (k - 1),
              hypergeomPmfQ M n N f
                + ∑ i in Finset.Icc (f + 1) (k - 1), hypergeomPmfQ M n N i)
            ((k : ℤ))).2
            = (hypergeomPmfQ M n N f
                + ∑ i in Finset.Icc (f + 1) (k - 1), hypergeomPmfQ M n N i)
              + hypergeomPmfQ M n N k / 2 := by
          unfold cdfLoopStep
          have hpmf' := hpmf
          push_cast at hpmf'
          norm_num [hpmf']
        rw [hstep]
        have hsum : hypergeomPmfQ M n N f
            + ∑ i in Finset.Icc (f + 1) (k - 1), hypergeomPmfQ M n N i
            = ∑ i in Finset.range k, hypergeomPmfQ M n N i := by
          have hIcc : Finset.Icc (f + 1) (k - 1) = Finset.Ico (f + 1) k := by
            ext x
            simp only [Finset.mem_Icc, Finset.mem_Ico]
            omega
          rw [hSz, Finset.sum_eq_sum_Ico_succ_bot hflt, hIcc]
        rw [hsum]
        rw [clamp01_of_mem (by linarith) (by linarith)]
        simp

/-- The SF summation loop walks downward from `k+t` to `k`, accumulating the
PMF values above `k` and, in half-boundary mode, half of the boundary PMF;
without half-boundary mode the step at `i = k` is skipped entirely. -/
theorem sf_fold_aux {k M n N : ℕ} (hv : ValidQuery k M n N) (half : Bool) :
    ∀ t : ℕ, k + t ≤ n → k + t ≤ N → ∀ acc : ℚ,
      (intRangeDown ((k : ℤ) + (t : ℤ) - 1) ((k : ℤ) - 1)).foldl
          (sfLoopStep (k : ℤ) (M : ℤ) (n : ℤ) (N : ℤ) half)
          (hypergeomPmfQ M n N (k + t), acc)
        = ((if t = 0 then hypergeomPmfQ M n N k
            else if half then hypergeomPmfQ M n N k / 2 else hypergeomPmfQ M n N (k + 1)),
           acc + (∑ i in Finset.Icc (k + 1) (k + t - 1), hypergeomPmfQ M n N i)
             + (if t ≠ 0 ∧ half = true then hypergeomPmfQ M n N k / 2 else 0)) := by
  obtain ⟨hM, hNM, hnM, hkN, hkn, hsub⟩ := hv
  intro t
  induction t with
  | zero =>
    intro _ _ acc
    rw [intRangeDown_empty (by omega)]
    rw [Finset.Icc_eq_empty (by omega : ¬ k + 1 ≤ k + 0 - 1)]
    simp
  | succ t ih =>
    intro hn hN acc
    have hhead : intRangeDown ((k : ℤ) + ((t + 1 : ℕ) : ℤ) - 1) ((k : ℤ) - 1)
        = ((k : ℤ) + (t : ℤ)) :: intRangeDown ((k : ℤ) + (t : ℤ) - 1) ((k : ℤ) - 1) := by
      have h1 : (k : ℤ) + ((t + 1 : ℕ) : ℤ) - 1 = (k : ℤ) + (t : ℤ) := by
        push_cast
        ring
      rw [h1, intRangeDown_cons (by omega)]
    rw [hhead, List.foldl_cons]
    -- the PMF recurrence for the downward step at `i = k + t`
    have hcross := hypergeomPmfQ_cross (M := M) (n := n) (N := N) (k + t)
      (by omega) (by omega) (by omega) hNM hnM
    have hA : ((((n : ℤ) - ((k : ℤ) + (t : ℤ))) * ((N : ℤ) - ((k : ℤ) + (t : ℤ))) : ℤ) : ℚ) ≠ 0 := by
      have : (0 : ℤ) < ((n : ℤ) - ((k : ℤ) + (t : ℤ))) * ((N : ℤ) - ((k : ℤ) + (t : ℤ))) := by
        apply mul_pos <;> push_cast <;> omega
      exact_mod_cast ne_of_gt (by exact_mod_cast this)
    have hpmf : hypergeomPmfQ M n N (k + (t + 1))
          * ((((M : ℤ) - (N : ℤ) - (n : ℤ) + ((k : ℤ) + (t : ℤ)) + 1)
              * (((k : ℤ) + (t : ℤ)) + 1) : ℤ) : ℚ)
          / ((((n : ℤ) - ((k : ℤ) + (t : ℤ))) * ((N : ℤ) - ((k : ℤ) + (t : ℤ))) : ℤ) : ℚ)
        = hypergeomPmfQ M n N (k + t) := by
      rw [div_eq_iff hA]
      have hidx : k + (t + 1) = (k + t) + 1 := by omega
      rw [hidx]
      have hD' : ((((M : ℤ) - (N : ℤ) - (n : ℤ) + ((k : ℤ) + (t : ℤ)) + 1)
            * (((k : ℤ) + (t : ℤ)) + 1) : ℤ) : ℚ)
          = ((((M : ℤ) - N - n + (k + t : ℕ) + 1) * ((k + t : ℕ) + 1) : ℤ) : ℚ) := by
        push_cast
        ring
      have hA' : ((((n : ℤ) - ((k : ℤ) + (t : ℤ))) * ((N : ℤ) - ((k : ℤ) + (t : ℤ))) : ℤ) : ℚ)
          = ((((n : ℤ) - (k + t : ℕ)) * ((N : ℤ) - (k + t : ℕ)) : ℤ) : ℚ) := by
        push_cast
        ring
      rw [hD', hA', hcross]
    rcases Nat.eq_zero_or_pos t with ht0 | htpos
    · -- the head element is the boundary index `k` itself
      subst ht0
      have hi : (k : ℤ) + ((0 : ℕ) : ℤ) = (k : ℤ) := by push_cast; ring
      cases half with
      | false =>
        have hskip : sfLoopStep (k : ℤ) (M : ℤ) (n : ℤ) (N : ℤ) false
            (hypergeomPmfQ M n N (k + (0 + 1)), acc) ((k : ℤ) + ((0 : ℕ) : ℤ))
            = (hypergeomPmfQ M n N (k + (0 + 1)), acc) := by
          unfold sfLoopStep
          rw [if_neg (by simp [hi])]
        rw [hskip, intRangeDown_empty (by omega)]
        rw [Finset.Icc_eq_empty (by omega : ¬ k + 1 ≤ k + (0 + 1) - 1)]
        simp
      | true =>
        have hpmf1 : hypergeomPmfQ M n N (k + 1)
              * (((M : ℚ) - N - n + k + 1) * ((k : ℚ) + 1))
              / (((n : ℚ) - k) * ((N : ℚ) - k))
            = hypergeomPmfQ M n N k := by
          have hcross0 := hypergeomPmfQ_cross (M := M) (n := n) (N := N) k
            (by omega) (by omega) (by omega) hNM hnM
          push_cast at hcross0
          have hc1 : (0 : ℚ) < (n : ℚ) - k := by
            have : (k : ℚ) < (n : ℚ) := by exact_mod_cast (by omega : k < n)
            linarith
          have hc2 : (0 : ℚ) < (N : ℚ) - k := by
            have : (k : ℚ) < (N : ℚ) := by exact_mod_cast (by omega : k < N)
            linarith
          rw [div_eq_iff (mul_ne_zero (ne_of_gt hc1) (ne_of_gt hc2)), hcross0]
        have hstep : sfLoopStep (k : ℤ) (M : ℤ) (n : ℤ) (N : ℤ) true
            (hypergeomPmfQ M n N (k + (0 + 1)), acc) ((k : ℤ) + ((0 : ℕ) : ℤ))
            = (hypergeomPmfQ M n N k / 2, acc + hypergeomPmfQ M n N k / 2) := by
          unfold sfLoopStep
          rw [if_pos (Or.inr rfl)]
          push_cast
          norm_num [hpmf1]
        rw [hstep, intRangeDown_empty (by omega)]
        rw [Finset.Icc_eq_empty (by omega : ¬ k + 1 ≤ k + (0 + 1) - 1)]
        simp
    · -- the head element lies strictly above the boundary: a plain step
      have hstep : sfLoopStep (k : ℤ) (M : ℤ) (n : ℤ) (N : ℤ) half
          (hypergeomPmfQ M n N (k + (t + 1)), acc) ((k : ℤ) + (t : ℤ))
          = (hypergeomPmfQ M n N (k + t), acc + hypergeomPmfQ M n N (k + t)) := by
        unfold sfLoopStep
        rw [if_pos (Or.inl (by push_cast; omega))]
        simp only [if_neg (show ¬(half = true ∧ ((k : ℤ) + (t : ℤ)) = (k : ℤ)) from by
          rintro ⟨-, habs⟩
          omega)]
        rw [hpmf]
      rw [hstep, ih (by omega) (by omega) (acc + hypergeomPmfQ M n N (k + t))]
      have hfst : (if t = 0 then hypergeomPmfQ M n N k
            else if half = true then hypergeomPmfQ M n N k / 2
              else hypergeomPmfQ M n N (k + 1))
          = (if t + 1 = 0 then hypergeomPmfQ M n N k
            else if half = true then hypergeomPmfQ M n N k / 2
              else hypergeomPmfQ M n N (k + 1)) := by
        rw [if_neg (show ¬ t = 0 from by omega), if_neg (show ¬ t + 1 = 0 from by omega)]
      have hsnd : acc + hypergeomPmfQ M n N (k + t)
            + (∑ i in Finset.Icc (k + 1) (k + t - 1), hypergeomPmfQ M n N i)
          = acc + (∑ i in Finset.Icc (k + 1) (k + (t + 1) - 1), hypergeomPmfQ M n N i) := by
        have h1 : k + (t + 1) - 1 = (k + t - 1) + 1 := by omega
        have h2 : (k + t - 1) + 1 = k + t := by omega
        rw [h1, Finset.sum_Icc_succ_top (by omega : k + 1 ≤ (k + t - 1) + 1), h2]
        ring
      have hif : (if t ≠ 0 ∧ half = true then hypergeomPmfQ M n N k / 2 else 0)
          = (if t + 1 ≠ 0 ∧ half = true then hypergeomPmfQ M n N k / 2 else 0) := by
        cases half with
        | false =>
          rw [if_neg (by rintro ⟨-, h⟩; exact absurd h (by simp)),
            if_neg (by rintro ⟨-, h⟩; exact absurd h (by simp))]
        | true =>
          rw [if_pos ⟨by omega, rfl⟩, if_pos ⟨by omega, rfl⟩]
      rw [Prod.mk.injEq]
      constructor
      · rw [← hfst]
      · rw [← hif, ← hsnd]

/-- `_sum_hypergeom_pmfs` in SF mode returns
`Σ_{i>k} PMF(i)` plus, in half-boundary mode, `PMF(k)/2`,
for every valid query and in every branch, degenerate or not. -/
theorem sum_sf_eq {k M n N : ℕ} (hv : ValidQuery k M n N) (half : Bool) :
    sum_hypergeom_pmfs (k : ℤ) (M : ℤ) (n : ℤ) (N : ℤ) half false
      = (if half then hypergeomPmfQ M n N k / 2 else 0)
        + ∑ i in Finset.Icc (k + 1) n, hypergeomPmfQ M n N i := by
  obtain ⟨hM, hNM, hnM, hkN, hkn, hsub⟩ := hv
  have hv' : ValidQuery k M n N := ⟨hM, hNM, hnM, hkN, hkn, hsub⟩
  have hpart := pmf_partition hv'
  have hS0 : 0 ≤ ∑ i in Finset.range k, hypergeomPmfQ M n N i :=
    Finset.sum_nonneg fun i _ => hypergeomPmfQ_nonneg M n N i
  have hT0 : 0 ≤ ∑ i in Finset.Icc (k + 1) n, hypergeomPmfQ M n N i :=
    Finset.sum_nonneg fun i _ => hypergeomPmfQ_nonneg M n N i
  have hk0 : 0 ≤ hypergeomPmfQ M n N k := hypergeomPmfQ_nonneg M n N k
  by_cases hdeg : (M : ℤ) = (n : ℤ) ∨ (M : ℤ) = (N : ℤ) ∨ (N : ℤ) = (k : ℤ)
      ∨ ((M : ℤ) - (N : ℤ) = (n : ℤ) - (k : ℤ) ∧ half = true)
      ∨ (n : ℤ) = 0 ∨ (N : ℤ) = 0
  · by_cases hsym : (M : ℤ) - (N : ℤ) = (n : ℤ) - (k : ℤ) ∧ half = true
    · -- symmetric degenerate case: everything except `PMF(k)` sits above `k`
      obtain ⟨hsymz, hhalf⟩ := hsym
      subst hhalf
      have hMk : M + k = n + N := by omega
      have hSz : ∑ i in Finset.range k, hypergeomPmfQ M n N i = 0 := by
        apply Finset.sum_eq_zero
        intro i hi
        rw [Finset.mem_range] at hi
        exact hypergeomPmfQ_vanish_low (by omega) hNM
      have hval : sum_hypergeom_pmfs (k : ℤ) (M : ℤ) (n : ℤ) (N : ℤ) true false
          = clamp01 (1 - exact_hypergeom_pmf (k : ℤ) (M : ℤ) (n : ℤ) (N : ℤ) / 2) := by
        unfold sum_hypergeom_pmfs
        rw [if_pos hdeg, if_pos ⟨hsymz, rfl⟩]
        simp
      rw [hval, exact_pmf_matches_reference hv']
      rw [clamp01_of_mem (by linarith) (by linarith)]
      rw [if_pos rfl]
      linarith
    · -- non-symmetric degenerate case: nothing sits above `k`
      have hdeg' : M = n ∨ M = N ∨ N = k ∨ n = 0 ∨ N = 0 := by
        rcases hdeg with h | h | h | h | h | h
        · exact Or.inl (by exact_mod_cast h)
        · exact Or.inr (Or.inl (by exact_mod_cast h))
        · exact Or.inr (Or.inr (Or.inl (by exact_mod_cast h)))
        · exact absurd h hsym
        · exact Or.inr (Or.inr (Or.inr (Or.inl (by exact_mod_cast h))))
        · exact Or.inr (Or.inr (Or.inr (Or.inr (by exact_mod_cast h))))
      have hTz : ∑ i in Finset.Icc (k + 1) n, hypergeomPmfQ M n N i = 0 := by
        apply Finset.sum_eq_zero
        intro i hi
        rw [Finset.mem_Icc] at hi
        exact hypergeomPmfQ_vanish_deg hv' hdeg' (by omega) hi.2
      have hval : sum_hypergeom_pmfs (k : ℤ) (M : ℤ) (n : ℤ) (N : ℤ) half false
          = clamp01 ((0 : ℚ) + (if half = true
              then exact_hypergeom_pmf (k : ℤ) (M : ℤ) (n : ℤ) (N : ℤ) / 2 else 0)) := by
        unfold sum_hypergeom_pmfs
        rw [if_pos hdeg, if_neg hsym]
        simp
      rw [hval, exact_pmf_matches_reference hv', hTz]
      cases half with
      | false =>
        norm_num
        rw [clamp01_of_mem (le_refl 0) (by norm_num)]
      | true =>
        norm_num
        rw [clamp01_of_mem (by linarith) (by linarith)]
  · -- non-degenerate branch
    by_cases hkn_eq : ¬(half = true) ∧ (k : ℤ) = (n : ℤ)
    · -- SF of the top of the range without half-weighting is empty
      have hkn' : k = n := by exact_mod_cast hkn_eq.2
      have hTz : ∑ i in Finset.Icc (k + 1) n, hypergeomPmfQ M n N i = 0 := by
        rw [Finset.Icc_eq_empty (by omega), Finset.sum_empty]
      have hval : sum_hypergeom_pmfs (k : ℤ) (M : ℤ) (n : ℤ) (N : ℤ) half false
          = clamp01 0 := by
        unfold sum_hypergeom_pmfs
        rw [if_neg hdeg, if_pos hkn_eq]
        simp
      rw [hval, clamp01_of_mem (le_refl 0) (by norm_num), hTz]
      have hhf : half = false := by
        cases half with
        | false => rfl
        | true => exact absurd rfl hkn_eq.1
      subst hhf
      simp
    · set L : ℕ := min n N with hL
      have hkL : k ≤ L := by omega
      have hLn : L ≤ n := min_le_left n N
      have hLN : L ≤ N := min_le_right n N
      have hvL : ValidQuery L M n N := by
        refine ⟨hM, hNM, hnM, hLN, hLn, ?_⟩
        rcases le_total n N with h | h
        · have : L = n := by omega
          omega
        · have : L = N := by omega
          omega
      have hiL : (n : ℤ) ⊓ (N : ℤ) = ((L : ℕ) : ℤ) := by
        rw [hL]
        push_cast
        rfl
      have hTsplit : ∑ i in Finset.Icc (k + 1) n, hypergeomPmfQ M n N i
          = (∑ i in Finset.Icc (k + 1) L, hypergeomPmfQ M n N i) := by
        have h1 : ∑ i in Finset.Icc (L + 1) n, hypergeomPmfQ M n N i = 0 := by
          apply Finset.sum_eq_zero
          intro i hi
          rw [Finset.mem_Icc] at hi
          exact hypergeomPmfQ_vanish_above_min (by omega) hi.2
        rw [← Nat.Ico_succ_right (k + 1) n, ← Nat.Ico_succ_right (k + 1) L]
        rw [← Finset.sum_Ico_consecutive _ (by omega : k + 1 ≤ L + 1) (by omega : L + 1 ≤ n + 1)]
        rw [Nat.Ico_succ_right (L + 1) n] at *
        rw [h1, add_zero]
      have hval : sum_hypergeom_pmfs (k : ℤ) (M : ℤ) (n : ℤ) (N : ℤ) half false
          = clamp01 (((intRangeDown (((L : ℕ) : ℤ) - 1) ((k : ℤ) - 1)).foldl
              (sfLoopStep (k : ℤ) (M : ℤ) (n : ℤ) (N : ℤ) half)
              ((if half = true ∧ ((L : ℕ) : ℤ) - 1 ≤ (k : ℤ) - 1
                  then exact_hypergeom_pmf ((L : ℕ) : ℤ) (M : ℤ) (n : ℤ) (N : ℤ) / 2
                  else exact_hypergeom_pmf ((L : ℕ) : ℤ) (M : ℤ) (n : ℤ) (N : ℤ)),
               (if (k : ℤ) < ((L : ℕ) : ℤ)
                  then (if half = true ∧ ((L : ℕ) : ℤ) - 1 ≤ (k : ℤ) - 1
                    then exact_hypergeom_pmf ((L : ℕ) : ℤ) (M : ℤ) (n : ℤ) (N : ℤ) / 2
                    else exact_hypergeom_pmf ((L : ℕ) : ℤ) (M : ℤ) (n : ℤ) (N : ℤ))
                  else (if half = true ∧ ((L : ℕ) : ℤ) = (k : ℤ)
                    then (if half = true ∧ ((L : ℕ) : ℤ) - 1 ≤ (k : ℤ) - 1
                      then exact_hypergeom_pmf ((L : ℕ) : ℤ) (M : ℤ) (n : ℤ) (N : ℤ) / 2
                      else exact_hypergeom_pmf ((L : ℕ) : ℤ) (M : ℤ) (n : ℤ) (N : ℤ))
                    else 0)))).2) := by
        unfold sum_hypergeom_pmfs
        rw [if_neg hdeg, if_neg hkn_eq, hiL]
        rfl
      rw [hval, exact_pmf_matches_reference hvL]
      by_cases hLk : L = k
      · -- the loop is empty: only the boundary PMF (if half-weighted) remains
        rw [hLk, intRangeDown_empty (by omega), List.foldl_nil]
        have hTz : ∑ i in Finset.Icc (k + 1) L, hypergeomPmfQ M n N i = 0 := by
          rw [Finset.Icc_eq_empty (by omega), Finset.sum_empty]
        rw [hTsplit, hTz, add_zero]
        cases half with
        | false =>
          simp only [Bool.false_eq_true, false_and, if_false]
          rw [if_neg (by omega : ¬ (k : ℤ) < (k : ℤ))]
          rw [clamp01_of_mem (le_refl 0) (by norm_num)]
        | true =>
          rw [if_pos ⟨rfl, by omega⟩, if_neg (by omega : ¬ (k : ℤ) < (k : ℤ)),
            if_pos ⟨rfl, rfl⟩]
          norm_num
          rw [clamp01_of_mem (by linarith) (by linarith)]
      · -- the loop walks from `min n N` down to `k`
        have hkLlt : k < L := by omega
        rw [if_neg (by
          rintro ⟨-, habs⟩
          omega), if_pos (by omega : (k : ℤ) < ((L : ℕ) : ℤ))]
        have hlist : intRangeDown (((L : ℕ) : ℤ) - 1) ((k : ℤ) - 1)
            = intRangeDown ((k : ℤ) + ((L - k : ℕ) : ℤ) - 1) ((k : ℤ) - 1) := by
          congr 1
          push_cast
          omega
        have hinit : hypergeomPmfQ M n N L = hypergeomPmfQ M n N (k + (L - k)) := by
          congr 1
          omega
        rw [hlist, hinit,
          sf_fold_aux hv' half (L - k) (by omega) (by omega) (hypergeomPmfQ M n N (k + (L - k)))]
        have hLsum : ∑ i in Finset.Icc (k + 1) L, hypergeomPmfQ M n N i
            = (∑ i in Finset.Icc (k + 1) (k + (L - k) - 1), hypergeomPmfQ M n N i)
              + hypergeomPmfQ M n N (k + (L - k)) := by
          obtain ⟨d, hd⟩ : ∃ d, L = k + d + 1 := ⟨L - k - 1, by omega⟩
          have h2 : k + (L - k) - 1 = k + d := by omega
          have h3 : k + (L - k) = k + d + 1 := by omega
          rw [h2, h3, hd, Finset.sum_Icc_succ_top (by omega : k + 1 ≤ k + d + 1)]
        have hifL : (if L - k ≠ 0 ∧ half = true then hypergeomPmfQ M n N k / 2 else 0)
            = (if half = true then hypergeomPmfQ M n N k / 2 else 0) := by
          cases half with
          | false => simp
          | true =>
            rw [if_pos ⟨by omega, rfl⟩]
            norm_num
        show clamp01 (hypergeomPmfQ M n N (k + (L - k))
            + (∑ i in Finset.Icc (k + 1) (k + (L - k) - 1), hypergeomPmfQ M n N i)
            + (if L - k ≠ 0 ∧ half = true then hypergeomPmfQ M n N k / 2 else 0)) = _
        rw [hifL]
        have hgoal : hypergeomPmfQ M n N (k + (L - k))
            + (∑ i in Finset.Icc (k + 1) (k + (L - k) - 1), hypergeomPmfQ M n N i)
            + (if half = true then hypergeomPmfQ M n N k / 2 else 0)
            = (if half = true then hypergeomPmfQ M n N k / 2 else 0)
              + ∑ i in Finset.Icc (k + 1) n, hypergeomPmfQ M n N i := by
          rw [hTsplit, hLsum]
          ring
        rw [hgoal]
        have hhb : (if half = true then hypergeomPmfQ M n N k / 2 else 0)
            ≤ hypergeomPmfQ M n N k := by
          cases half with
          | false => simpa using hk0
          | true =>
            norm_num
            linarith
        have hhb0 : 0 ≤ (if half = true then hypergeomPmfQ M n N k / 2 else 0) := by
          cases half with
          | false => simp
          | true =>
            norm_num
            linarith
        rw [clamp01_of_mem (by linarith) (by linarith)]

/-- Claim C3 — for every valid, non-degenerate query, the exact CDF
summation without half-boundary mode returns exactly
`Σ_{i=i_first}^{k} PMF(i)` with `i_first = max(0, n+N−M)`: the boundary PMF
is computed exactly at `i_first` and the multiplicative update
`×(n−i)(N−i) / ((M−N−n+i+1)(i+1))` reproduces each successive PMF. -/
theorem exact_cdf_sums_pmfs {k M n N : ℕ} (hv : ValidQuery k M n N)
    (hnd : M ≠ n ∧ M ≠ N ∧ N ≠ k ∧ n ≠ 0 ∧ N ≠ 0) :
    sum_hypergeom_pmfs (k : ℤ) (M : ℤ) (n : ℤ) (N : ℤ) false true
      = ∑ i in Finset.Icc (n + N - M) k, hypergeomPmfQ M n N i := by
  obtain ⟨hM, hNM, hnM, hkN, hkn, hsub⟩ := hv
  rw [sum_cdf_eq ⟨hM, hNM, hnM, hkN, hkn, hsub⟩ false]
  rw [if_neg (by simp : ¬ (false : Bool) = true)]
  rw [sum_range_eq_Ico_iFirst hNM (by omega : n + N - M ≤ k)]
  rw [← Nat.Ico_succ_right (n + N - M) k,
    Finset.sum_Ico_succ_top (by omega : n + N - M ≤ k)]

/-- Witness for claim C3 at the valid non-degenerate query
`k=2, M=12, n=5, N=4`. -/
theorem exact_cdf_sums_pmfs_witness :
    ValidQuery 2 12 5 4 ∧
      (12 ≠ 5 ∧ 12 ≠ 4 ∧ 4 ≠ 2 ∧ 5 ≠ 0 ∧ 4 ≠ 0) ∧
      sum_hypergeom_pmfs ((2 : ℕ) : ℤ) ((12 : ℕ) : ℤ) ((5 : ℕ) : ℤ) ((4 : ℕ) : ℤ) false true
        = ∑ i in Finset.Icc (5 + 4 - 12) 2, hypergeomPmfQ 12 5 4 i :=
  ⟨by norm_num [ValidQuery], by norm_num,
    exact_cdf_sums_pmfs (by norm_num [ValidQuery]) (by norm_num)⟩

/-- Claim C6 — for every valid query, `exact_hypergeom_min_cdf_sf` returns
`min(cdf_half, sf_half)`, where `cdf_half = Σ_{i<k} PMF(i) + PMF(k)/2` and
`sf_half = PMF(k)/2 + Σ_{i>k} PMF(i)` are the two half-boundary tails;
the shortcut that returns the first computed tail when it is below one half
never changes the result, because the two tails sum to exactly `1`. -/
theorem exact_min_cdf_sf_eq {k M n N : ℕ} (hv : ValidQuery k M n N) :
    exact_hypergeom_min_cdf_sf (k : ℤ) (M : ℤ) (n : ℤ) (N : ℤ)
      = min (sum_hypergeom_pmfs (k : ℤ) (M : ℤ) (n : ℤ) (N : ℤ) true true)
          (sum_hypergeom_pmfs (k : ℤ) (M : ℤ) (n : ℤ) (N : ℤ) true false)
    ∧ sum_hypergeom_pmfs (k : ℤ) (M : ℤ) (n : ℤ) (N : ℤ) true true
        = (∑ i in Finset.range k, hypergeomPmfQ M n N i) + hypergeomPmfQ M n N k / 2
    ∧ sum_hypergeom_pmfs (k : ℤ) (M : ℤ) (n : ℤ) (N : ℤ) true false
        = hypergeomPmfQ M n N k / 2
          + ∑ i in Finset.Icc (k + 1) n, hypergeomPmfQ M n N i := by
  have hcdf := sum_cdf_eq hv true
  have hsf := sum_sf_eq hv true
  rw [if_pos rfl] at hcdf hsf
  have hpart := pmf_partition hv
  have hone : sum_hypergeom_pmfs (k : ℤ) (M : ℤ) (n : ℤ) (N : ℤ) true true
      + sum_hypergeom_pmfs (k : ℤ) (M : ℤ) (n : ℤ) (N : ℤ) true false = 1 := by
    rw [hcdf, hsf]
    linarith
  refine ⟨?_, hcdf, hsf⟩
  unfold exact_hypergeom_min_cdf_sf
  by_cases hcost : min ((N : ℤ) + N) ((n : ℤ) + n) + max 1 (((k : ℤ) - 1) * 4)
      ≤ min ((M : ℤ) - N + M - N) ((n : ℤ) + n) + max 1 (((n : ℤ) - k - 1) * 4)
  · rw [if_pos hcost]
    by_cases hlt : sum_hypergeom_pmfs (k : ℤ) (M : ℤ) (n : ℤ) (N : ℤ) true true < 1 / 2
    · rw [if_pos hlt]
      exact (min_eq_left (by linarith)).symm
    · rw [if_neg hlt]
  · rw [if_neg hcost]
    by_cases hlt : sum_hypergeom_pmfs (k : ℤ) (M : ℤ) (n : ℤ) (N : ℤ) true false < 1 / 2
    · rw [if_pos hlt]
      exact (min_eq_right (by linarith)).symm
    · rw [if_neg hlt]

/-- Witness for claim C6 at the valid query `k=1, M=5, n=2, N=2`. -/
theorem exact_min_cdf_sf_eq_witness :
    ValidQuery 1 5 2 2 ∧
      (exact_hypergeom_min_cdf_sf ((1 : ℕ) : ℤ) ((5 : ℕ) : ℤ) ((2 : ℕ) : ℤ) ((2 : ℕ) : ℤ)
        = min (sum_hypergeom_pmfs ((1 : ℕ) : ℤ) ((5 : ℕ) : ℤ) ((2 : ℕ) : ℤ) ((2 : ℕ) : ℤ) true true)
            (sum_hypergeom_pmfs ((1 : ℕ) : ℤ) ((5 : ℕ) : ℤ) ((2 : ℕ) : ℤ) ((2 : ℕ) : ℤ) true false)
      ∧ sum_hypergeom_pmfs ((1 : ℕ) : ℤ) ((5 : ℕ) : ℤ) ((2 : ℕ) : ℤ) ((2 : ℕ) : ℤ) true true
          = (∑ i in Finset.range 1, hypergeomPmfQ 5 2 2 i) + hypergeomPmfQ 5 2 2 1 / 2
      ∧ sum_hypergeom_pmfs ((1 : ℕ) : ℤ) ((5 : ℕ) : ℤ) ((2 : ℕ) : ℤ) ((2 : ℕ) : ℤ) true false
          = hypergeomPmfQ 5 2 2 1 / 2
            + ∑ i in Finset.Icc (1 + 1) 2, hypergeomPmfQ 5 2 2 i) :=
  ⟨by norm_num [ValidQuery], exact_min_cdf_sf_eq (by norm_num [ValidQuery])⟩

/-! ### The algorithm selector and the facade dispatchers -/

theorem rank_le_three (a : ℤ) : exactnessRank a ≤ 3 := by
  unfold exactnessRank
  split_ifs <;> norm_num

/-- Raising the budget of the first (exact) arm of an
`if cost ≤ budget then exact else rest` selector can only move the outcome
towards the exact algorithm. -/
theorem rank_budget_mono {C R b b' : ℤ} (hbb : b ≤ b') (hR : exactnessRank R ≤ 3) :
    exactnessRank (if C ≤ b then 0 else R) ≤ exactnessRank (if C ≤ b' then 0 else R) := by
  by_cases h : C ≤ b
  · rw [if_pos h, if_pos (le_trans h hbb)]
  · rw [if_neg h]
    by_cases h' : C ≤ b'
    · rw [if_pos h']
      calc exactnessRank R ≤ 3 := hR
        _ = exactnessRank 0 := by norm_num [exactnessRank]
    · rw [if_neg h']

/-- Claim C8 — for a fixed query, fixed approximation budgets, fixed
normal-approximation test outcome and fixed invocation mode, the algorithm
selector is monotone in the exact-iteration budget with respect to the
exactness order Exact > Lanczos > Spouge > NormalTaylor/LibraryReference:
only the first selector arm reads the exact budget, and every other arm is
independent of it. -/
theorem choose_algorithm_monotone_in_exact_budget
    (k M n N lanczosBudget spougeBudget : ℤ) (normalOracle pm : Bool)
    (mode : Option Bool) {b b' : ℤ} (hbb : b ≤ b') :
    exactnessRank (choose_hypergeom_algorithm k M n N b lanczosBudget spougeBudget
        normalOracle pm mode)
      ≤ exactnessRank (choose_hypergeom_algorithm k M n N b' lanczosBudget spougeBudget
        normalOracle pm mode) := by
  unfold choose_hypergeom_algorithm
  cases pm with
  | false =>
    norm_num
    exact rank_budget_mono hbb (rank_le_three _)
  | true =>
    norm_num
    exact rank_budget_mono hbb (rank_le_three _)

/-- Witness for claim C8 at the query `k=1, M=4, n=2, N=2` with the exact
budget raised from `0` to `5` (Lanczos budget `0`, Spouge budget `172`). -/
theorem choose_algorithm_monotone_witness :
    (0 : ℤ) ≤ 5
    ∧ exactnessRank (choose_hypergeom_algorithm 1 4 2 2 0 0 172 false false (some true))
      ≤ exactnessRank (choose_hypergeom_algorithm 1 4 2 2 5 0 172 false false (some true)) :=
  ⟨by norm_num, choose_algorithm_monotone_in_exact_budget 1 4 2 2 0 172 false false
    (some true) (by norm_num)⟩

/-- Claim C10 — in PMF mode the selector returns only the codes 0, 1, 2
or 4, never 3, so the dispatcher of `custom_hypergeom_pmf` always finds a
handler and its final `return None` fallthrough is unreachable. -/
theorem choose_algorithm_pmf_never_normal (k M n N eB lB sB : ℤ) (o : Bool)
    (mode : Option Bool) :
    (choose_hypergeom_algorithm k M n N eB lB sB o true mode = 0
      ∨ choose_hypergeom_algorithm k M n N eB lB sB o true mode = 1
      ∨ choose_hypergeom_algorithm k M n N eB lB sB o true mode = 2
      ∨ choose_hypergeom_algorithm k M n N eB lB sB o true mode = 4)
    ∧ (custom_hypergeom_pmf_dispatch
        (choose_hypergeom_algorithm k M n N eB lB sB o true mode)).isSome = true := by
  have h : choose_hypergeom_algorithm k M n N eB lB sB o true mode = 0
      ∨ choose_hypergeom_algorithm k M n N eB lB sB o true mode = 1
      ∨ choose_hypergeom_algorithm k M n N eB lB sB o true mode = 2
      ∨ choose_hypergeom_algorithm k M n N eB lB sB o true mode = 4 := by
    unfold choose_hypergeom_algorithm
    split_ifs <;> simp_all
  refine ⟨h, ?_⟩
  rcases h with h | h | h | h <;> rw [h] <;> decide

/-- Claim C1 — counterexample (code bug): at the valid query
`k=1, M=4, n=2, N=2` with iteration budgets `exact=0, lanczos=0,
spouge=172`, the selector in CDF mode picks the Spouge strategy (code 2);
the dispatcher of `custom_hypergeom_cdf` then falls through every arm —
its Spouge arm (source line 1500) compares the function object
`approx_spouge_hypergeom_cdf` with the integer `2`, which is always false —
and the facade returns `None` instead of a probability. -/
theorem custom_hypergeom_cdf_returns_none :
    ValidQuery 1 4 2 2
    ∧ choose_hypergeom_algorithm 1 4 2 2 0 0 172 false false (some true) = 2
    ∧ custom_hypergeom_cdf_dispatch
        (choose_hypergeom_algorithm 1 4 2 2 0 0 172 false false (some true)) = none :=
  ⟨by norm_num [ValidQuery], by decide, by decide⟩

/-- Claim C4 — counterexample (code bug): at the valid query
`k=1, M=6, n=2, N=3` with budgets `exact=0, lanczos=0, spouge=200`, the CDF
facade produces no probability value at all (it returns `None` through the
broken Spouge arm), so no value in `[0,1]` is returned. -/
theorem custom_hypergeom_cdf_value_not_in_unit_interval :
    ValidQuery 1 6 2 3
    ∧ choose_hypergeom_algorithm 1 6 2 3 0 0 200 false false (some true) = 2
    ∧ custom_hypergeom_cdf_dispatch
        (choose_hypergeom_algorithm 1 6 2 3 0 0 200 false false (some true)) = none :=
  ⟨by norm_num [ValidQuery], by decide, by decide⟩

/-! ### The Taylor summation loop of the normal CDF integral -/

/-- Claim C7 — counterexample (code bug): the Taylor summation loop has no
iteration cap and the module contains no `raise` statement, so no
computation error can ever be surfaced.  Concretely, at `z = 6` with the
default error tolerance `10^(−min(100,50)/2) = 10^(−25)` the loop is still
running after 12 iterations: the fuel-exhausted outcome `none` of the
verbatim loop model is the uncapped source loop still iterating. -/
theorem taylor_loop_has_no_iteration_cap :
    taylorLoop 6 (1 / 10 ^ 25) 12 (taylorInit 6) = none := by
  norm_num [taylorLoop, taylorStep, taylorInit, abs]

/-! ### Behaviour on invalid queries -/

/-- Claim C5 — counterexample: the query `k=2, M=5, n=2, N=1` violates the
validity invariant (`k > N`), yet `exact_hypergeom_pmf` returns `1/20`,
which is neither the degenerate boundary probability `0` or `1` nor an
out-of-support PMF of `0`. -/
theorem exact_pmf_invalid_query_not_boundary :
    ¬ ValidQuery 2 5 2 1
    ∧ exact_hypergeom_pmf 2 5 2 1 = 1 / 20
    ∧ (1 / 20 : ℚ) ≠ 0 ∧ (1 / 20 : ℚ) ≠ 1 := by
  refine ⟨?_, ?_, by norm_num, by norm_num⟩
  · intro h
    obtain ⟨-, -, -, hkN, -, -⟩ := h
    omega
  · rw [exact_pmf_eq_fractionValue]
    norm_num [fractionValue, rangesProd, pmfNumRanges, pmfDenRanges,
      rangeProd_step, rangeProd_nil, rangeProd_one]

/-- Claim C5 (amended) — on every integer query, valid or not,
`exact_hypergeom_pmf` simply evaluates the `max(1,·)`-clamped range-product
fraction; no validity guard intervenes, so invalid queries produce the
clamped fraction value rather than a degenerate boundary probability. -/
theorem exact_pmf_invalid_query_unguarded (k M n N : ℤ) :
    exact_hypergeom_pmf k M n N
      = fractionValue (pmfNumRanges M n N) (pmfDenRanges k M n N) :=
  exact_pmf_eq_fractionValue k M n N

end ElectionOutliers
